import Mathlib

/-!
# The JSON formatter of gollum (format/json.go)

A shallow embedding of the JSON assembler of `format/json.go`: the reader state,
the nesting stack, the output buffer and the callbacks `readKey`, `readValue`,
`readEscaped`, `readArray`, `readObject`, `readEnd`, the combined callbacks, the
driver `PrepareMessage`, the accessors `Len`, `String` and `Read`, and
`Configure`.

Conventions.
* A byte is a natural number (`Byte`); the bytes written by the code are given
  by their ASCII codes: 123 is the opening brace, 125 the closing brace, 91 and
  93 the square brackets, 44 the comma, 34 the double quote, 58 the colon,
  10 the line feed.
* `format.message` (a `*bytes.Buffer`) is the list of bytes written so far.
* `format.stack` is a Go slice: `append` adds at the end, so the top of the
  stack is the last element of the list.
* The two loops of the file (`writeKey`, `PrepareMessage`) run `readEnd` while a
  condition on the state holds.  They are embedded with a fuel argument that is
  set to `len(stack) + 1`; the theorems show that this fuel is never used up.
* `bytes.TrimSpace` and `json.HTMLEscape` belong to the Go standard library and
  are embedded from their definition there.
* The date callbacks (`readDate`, `readDateEnd`) depend on package `time` and
  are left out.
-/

namespace Gollum

/-- A byte of a Go byte slice. -/
abbrev Byte := Nat

/-- The identifier the parser gives to a parser state (`shared.ParserStateID`). -/
abbrev ParserStateID := Nat

/-! ## Go standard library: `bytes.TrimSpace` and `json.HTMLEscape` -/

/-- Width of the white space rune encoded at the front of `s`, 0 when there is
none.  `unicode.IsSpace` holds for tab, line feed, vertical tab, form feed,
carriage return, space, U+0085, U+00A0, U+1680, U+2000 to U+200A, U+2028,
U+2029, U+202F, U+205F and U+3000; the function recognises their UTF-8
encodings, which is what `utf8.DecodeRune` followed by `unicode.IsSpace` does. -/
def spaceWidth : List Byte → Nat
  | [] => 0
  | [b] => if b = 9 ∨ b = 10 ∨ b = 11 ∨ b = 12 ∨ b = 13 ∨ b = 32 then 1 else 0
  | [b, c] =>
    if b = 9 ∨ b = 10 ∨ b = 11 ∨ b = 12 ∨ b = 13 ∨ b = 32 then 1
    else if b = 0xC2 ∧ (c = 0x85 ∨ c = 0xA0) then 2
    else 0
  | b :: c :: d :: _ =>
    if b = 9 ∨ b = 10 ∨ b = 11 ∨ b = 12 ∨ b = 13 ∨ b = 32 then 1
    else if b = 0xC2 ∧ (c = 0x85 ∨ c = 0xA0) then 2
    else if b = 0xE1 ∧ c = 0x9A ∧ d = 0x80 then 3
    else if b = 0xE2 ∧ c = 0x80 ∧ ((0x80 ≤ d ∧ d ≤ 0x8A) ∨ d = 0xA8 ∨ d = 0xA9 ∨ d = 0xAF) then 3
    else if b = 0xE2 ∧ c = 0x81 ∧ d = 0x9F then 3
    else if b = 0xE3 ∧ c = 0x80 ∧ d = 0x80 then 3
    else 0

/-- Width of the white space rune encoded at the end of a slice, given the
slice reversed (last byte first), 0 when there is none: what
`utf8.DecodeLastRune` followed by `unicode.IsSpace` computes. -/
def spaceWidthRev : List Byte → Nat
  | [] => 0
  | [b] => if b = 9 ∨ b = 10 ∨ b = 11 ∨ b = 12 ∨ b = 13 ∨ b = 32 then 1 else 0
  | [c, b] =>
    if c = 9 ∨ c = 10 ∨ c = 11 ∨ c = 12 ∨ c = 13 ∨ c = 32 then 1
    else if b = 0xC2 ∧ (c = 0x85 ∨ c = 0xA0) then 2
    else 0
  | d :: c :: b :: _ =>
    if d = 9 ∨ d = 10 ∨ d = 11 ∨ d = 12 ∨ d = 13 ∨ d = 32 then 1
    else if c = 0xC2 ∧ (d = 0x85 ∨ d = 0xA0) then 2
    else if b = 0xE1 ∧ c = 0x9A ∧ d = 0x80 then 3
    else if b = 0xE2 ∧ c = 0x80 ∧ ((0x80 ≤ d ∧ d ≤ 0x8A) ∨ d = 0xA8 ∨ d = 0xA9 ∨ d = 0xAF) then 3
    else if b = 0xE2 ∧ c = 0x81 ∧ d = 0x9F then 3
    else if b = 0xE3 ∧ c = 0x80 ∧ d = 0x80 then 3
    else 0

/-- The loop of `bytes.TrimLeftFunc(s, unicode.IsSpace)`: drop white space runes
from the front until a rune that is not white space; every round drops at least
one byte, so `len(s)` rounds are enough. -/
def trimLeftLoop : Nat → List Byte → List Byte
  | 0, s => s
  | fuel + 1, s => if spaceWidth s = 0 then s else trimLeftLoop fuel (s.drop (spaceWidth s))

/-- The loop of `bytes.TrimRightFunc(s, unicode.IsSpace)` on the reversed slice. -/
def trimRightLoop : Nat → List Byte → List Byte
  | 0, s => s
  | fuel + 1, s => if spaceWidthRev s = 0 then s else trimRightLoop fuel (s.drop (spaceWidthRev s))

/-- Go's `bytes.TrimSpace`: `TrimRightFunc(TrimLeftFunc(s, IsSpace), IsSpace)`. -/
def TrimSpace (s : List Byte) : List Byte :=
  let l := trimLeftLoop s.length s
  (trimRightLoop l.length l.reverse).reverse

/-- The table `hex = "0123456789abcdef"` of package `encoding/json`. -/
def hex (n : Nat) : Byte := if n < 10 then 48 + n else 87 + n

/-- Go's `json.HTMLEscape`: each of the bytes 60, 62 and 38 (less than, greater
than, ampersand) becomes the six bytes backslash, u, 0, 0 and its two hex
digits; the encodings of U+2028 and U+2029 (E2 80 A8, E2 80 A9) become
backslash, u, 2, 0, 2 and 8 or 9; every other byte is copied. -/
def HTMLEscape : List Byte → List Byte
  | [] => []
  | [c] =>
    if c = 60 ∨ c = 62 ∨ c = 38 then [92, 117, 48, 48, hex (c / 16), hex (c % 16)]
    else [c]
  | [c, d] =>
    if c = 60 ∨ c = 62 ∨ c = 38 then
      [92, 117, 48, 48, hex (c / 16), hex (c % 16)] ++ HTMLEscape [d]
    else c :: HTMLEscape [d]
  | c :: d :: e :: rest =>
    if c = 60 ∨ c = 62 ∨ c = 38 then
      [92, 117, 48, 48, hex (c / 16), hex (c % 16)] ++ HTMLEscape (d :: e :: rest)
    else if c = 0xE2 ∧ d = 0x80 ∧ (e = 0xA8 ∨ e = 0xA9) then
      [92, 117, 50, 48, 50, hex (e % 16)] ++ HTMLEscape rest
    else c :: HTMLEscape (d :: e :: rest)

/-! ## The reader state and the formatter -/

/-- The type `jsonReaderState` with its seven constants. -/
inductive jsonReaderState
  | jsonReadArrayEnd
  | jsonReadObjectEnd
  | jsonReadObject
  | jsonReadKey
  | jsonReadValue
  | jsonReadArray
  | jsonReadArrayAppend
  deriving DecidableEq, Repr

export jsonReaderState (jsonReadArrayEnd jsonReadObjectEnd jsonReadObject jsonReadKey
  jsonReadValue jsonReadArray jsonReadArrayAppend)

/-- The integer value `iota` gives to each constant. -/
def jsonReaderState.toNat : jsonReaderState → Nat
  | jsonReadArrayEnd => 0
  | jsonReadObjectEnd => 1
  | jsonReadObject => 2
  | jsonReadKey => 3
  | jsonReadValue => 4
  | jsonReadArray => 5
  | jsonReadArrayAppend => 6

/-- Modelled from the spec: a compiled `shared.TransitionDirective`, whose
declaration is not among the sources.  The spec gives it a state, a token, a
next state, a set of flags and an operation; the operation is kept by its
name. -/
structure TransitionDirective where
  State : String
  Token : String
  NextState : String
  Flags : List String
  Callback : String
  deriving DecidableEq, Repr

/-- Modelled from the spec: `shared.TransitionParser`, whose declaration is not
among the sources.  The formatter hands it directives (`AddDirectives`) and asks
it for the name of a parser state (`GetStateName`); it is represented by the
directives it was given and by its table of state names. -/
structure TransitionParser where
  directives : List TransitionDirective
  GetStateName : ParserStateID → List Byte

/-- The struct `JSON`. -/
structure JSON where
  message : List Byte
  parser : TransitionParser
  state : jsonReaderState
  stack : List jsonReaderState
  initState : String
  timeRead : String
  timeWrite : String

/-- Writing to the buffer: `format.message.Write`, `WriteString`, `WriteByte`. -/
def JSON.Write (format : JSON) (bs : List Byte) : JSON :=
  { format with message := format.message ++ bs }

/-! ## The callbacks -/

/-- The method `readEnd`; `data` and `state` are not used by the body. -/
def readEnd (format : JSON) (_data : List Byte) (_state : ParserStateID) : JSON :=
  let written :=
    if format.stack.length > 0 then
      match format.state with
      | jsonReadArray => format.Write [93]
      | jsonReadArrayAppend => format.Write [93]
      | _ => format.Write [125]
    else format
  if h : format.stack.length > 1 then
    { written with
      state := format.stack.get ⟨format.stack.length - 1, by omega⟩
      stack := format.stack.take (format.stack.length - 1) }
  else
    { written with stack := [], state := jsonReadValue }

/-- The loop at the head of `writeKey`:
`for format.state == jsonReadArray || format.state == jsonReadArrayAppend`,
each round calling `format.readEnd(nil, 0)`. -/
def writeKeyLoop : Nat → JSON → JSON
  | 0, format => format
  | fuel + 1, format =>
    if format.state = jsonReadArray ∨ format.state = jsonReadArrayAppend then
      writeKeyLoop fuel (readEnd format [] 0)
    else format

/-- The method `writeKey`. -/
def writeKey (format : JSON) (key : List Byte) : JSON :=
  let closed := writeKeyLoop (format.stack.length + 1) format
  let nulled :=
    if closed.state.toNat > jsonReadKey.toNat then closed.Write [110, 117, 108, 108] else closed
  let separated := if nulled.state ≠ jsonReadObject then nulled.Write [44] else nulled
  ((separated.Write [34]).Write (HTMLEscape key)).Write [34, 58]

/-- The method `readKey`. -/
def readKey (format : JSON) (data : List Byte) (_state : ParserStateID) : JSON :=
  { writeKey format data with state := jsonReadValue }

/-- The method `readValue`.  The `default` case writes the key and falls through
to the case `jsonReadValue`. -/
def readValue (format : JSON) (data : List Byte) (state : ParserStateID) : JSON :=
  match format.state with
  | jsonReadValue => { format.Write (TrimSpace data) with state := jsonReadKey }
  | jsonReadArray => { format.Write (TrimSpace data) with state := jsonReadArrayAppend }
  | jsonReadArrayAppend => (format.Write [44]).Write (TrimSpace data)
  | _ =>
    { (writeKey format (format.parser.GetStateName state)).Write (TrimSpace data) with
      state := jsonReadKey }

/-- The method `readEscaped`.  The closing quote is written after the switch. -/
def readEscaped (format : JSON) (data : List Byte) (state : ParserStateID) : JSON :=
  let switched :=
    match format.state with
    | jsonReadValue =>
      { (format.Write [34]).Write (HTMLEscape (TrimSpace data)) with state := jsonReadKey }
    | jsonReadArray =>
      { (format.Write [34]).Write (HTMLEscape (TrimSpace data)) with
        state := jsonReadArrayAppend }
    | jsonReadArrayAppend => (format.Write [44, 34]).Write (HTMLEscape (TrimSpace data))
    | _ =>
      { ((writeKey format (format.parser.GetStateName state)).Write [34]).Write
          (HTMLEscape (TrimSpace data)) with state := jsonReadKey }
  switched.Write [34]

/-- The method `readArray`. -/
def readArray (format : JSON) (_data : List Byte) (_state : ParserStateID) : JSON :=
  let written :=
    if format.state = jsonReadArrayAppend then format.Write [44, 91] else format.Write [91]
  { written with stack := format.stack ++ [format.state], state := jsonReadArray }

/-- The method `readObject`. -/
def readObject (format : JSON) (_data : List Byte) (_state : ParserStateID) : JSON :=
  let written :=
    if format.state = jsonReadArrayAppend then format.Write [44, 123] else format.Write [123]
  { written with stack := format.stack ++ [format.state], state := jsonReadObject }

/-- The method `readValueEnd`. -/
def readValueEnd (format : JSON) (data : List Byte) (state : ParserStateID) : JSON :=
  let formatState := format.state
  readEnd { readValue format data state with state := formatState } data state

/-- The method `readEscapedEnd`. -/
def readEscapedEnd (format : JSON) (data : List Byte) (state : ParserStateID) : JSON :=
  let formatState := format.state
  readEnd { readEscaped format data state with state := formatState } data state

/-! ## The parser's calls and the driver -/

/-- The callbacks registered in `parserFunctions` under the names `key`, `val`,
`esc`, `arr`, `obj`, `end`, `val+end` and `esc+end`. -/
inductive ParsedFunc
  | key
  | val
  | esc
  | arr
  | obj
  | end_
  | val_end
  | esc_end
  deriving DecidableEq, Repr

/-- One call the parser makes while it scans a message: the callback of the
matching directive, the bytes matched and the parser state. -/
structure Invocation where
  fn : ParsedFunc
  data : List Byte
  state : ParserStateID
  deriving DecidableEq, Repr

/-- The method each name of `parserFunctions` is bound to, applied. -/
def invoke (format : JSON) (c : Invocation) : JSON :=
  match c.fn with
  | .key => readKey format c.data c.state
  | .val => readValue format c.data c.state
  | .esc => readEscaped format c.data c.state
  | .arr => readArray format c.data c.state
  | .obj => readObject format c.data c.state
  | .end_ => readEnd format c.data c.state
  | .val_end => readValueEnd format c.data c.state
  | .esc_end => readEscapedEnd format c.data c.state

/-- The calls of one scan, in order. -/
def invokeAll (format : JSON) (calls : List Invocation) : JSON :=
  calls.foldl invoke format

/-- The loop of `PrepareMessage` under the comment "Close any open tags". -/
def closeLoop : Nat → JSON → JSON
  | 0, format => format
  | fuel + 1, format =>
    if format.state = jsonReadArray ∨ format.state = jsonReadArrayAppend ∨
        format.state = jsonReadObject then
      closeLoop fuel (readEnd format [] 0)
    else format

/-- The first part of `PrepareMessage`, up to and including the loop that
closes open tags (the lines before the final `WriteString`).

Modelled from the spec: `format.parser.Parse`, which is not among the sources,
is represented by what the formatter sees of it: the callbacks it invokes while
scanning the message (`calls`, in order) and its two results, the unmatched
bytes (`remains`, `none` for `nil`) and the final parser state. -/
def assembleMessage (format : JSON) (calls : List Invocation) (remains : Option (List Byte))
    (state : ParserStateID) : JSON :=
  let started := { format with message := [123], state := jsonReadObject }
  let parsed := invokeAll started calls
  let flushed :=
    match remains with
    | some r => readEscaped parsed r state
    | none => parsed
  if flushed.message.length > 1 then closeLoop (flushed.stack.length + 1) flushed else flushed

/-- The method `PrepareMessage`: the part above, then the closing brace and a
line feed are written and the buffer is replaced by its `TrimSpace`. -/
def PrepareMessage (format : JSON) (calls : List Invocation) (remains : Option (List Byte))
    (state : ParserStateID) : JSON :=
  let closed := assembleMessage format calls remains state
  let ended := closed.Write [125, 10]
  { ended with message := TrimSpace ended.message }

/-- The method `Len`. -/
def JSON.Len (format : JSON) : Nat := format.message.length

/-! ## Configuration -/

/-- Modelled from the spec: `core.PluginConfig`, whose declaration is not among
the sources, is represented by the three accessors `Configure` calls. -/
structure PluginConfig where
  GetString : String → String → String
  HasValue : String → Bool
  GetStringArray : String → List String → List String

/-- Modelled from the spec: the functions of package `shared` that `Configure`
calls and that are not among the sources: the directive compiler
`ParseTransitionDirective` (a directive string and the known function names to a
directive or an error text), the table of state names a parser builds from
its directives, and whether `AddDirectives` returns for a parser and a list of
directives: a call into the package need not return (Go code can panic, as
on an index out of range), and `addDirectivesReturns` tells when it does. -/
structure Shared where
  ParseTransitionDirective : String → List String → Except String TransitionDirective
  stateNames : List TransitionDirective → ParserStateID → List Byte
  addDirectivesReturns : TransitionParser → List TransitionDirective → Bool

/-- Modelled from the spec: `shared.NewTransitionParser`, a parser without
directives. -/
def NewTransitionParser (shared : Shared) : TransitionParser :=
  { directives := [], GetStateName := shared.stateNames [] }

/-- Modelled from the spec: `TransitionParser.AddDirectives`, which adds the
directives to the parser's table; `none` when the call does not return. -/
def TransitionParser.AddDirectives (shared : Shared) (parser : TransitionParser)
    (directives : List TransitionDirective) : Option TransitionParser :=
  if shared.addDirectivesReturns parser directives then
    some
      { directives := parser.directives ++ directives
        GetStateName := shared.stateNames (parser.directives ++ directives) }
  else none

/-- The keys of the map `parserFunctions`. -/
def parserFunctions : List String :=
  ["key", "val", "esc", "dat", "arr", "obj", "end", "val+end", "esc+end", "dat+end"]

/-- The loop of `Configure` over `directiveStrings`: the start state and the
directives collected so far go in; the start state, and the directives or the
error of the first string that does not parse, come out. -/
def parseDirectives (shared : Shared) :
    List String → String → List TransitionDirective →
      String × Except String (List TransitionDirective)
  | [], initState, directives => (initState, .ok directives)
  | dirString :: rest, initState, directives =>
    match shared.ParseTransitionDirective dirString parserFunctions with
    | .error err => (initState, .error (err ++ ": " ++ dirString))
    | .ok directive =>
      parseDirectives shared rest (if initState = "" then directive.State else initState)
        (directives ++ [directive])

/-- The method `Configure`: the configured formatter and the error returned
(`none` for `nil`), or `none` when the call does not return because
`AddDirectives` does not.  The two warnings written to the log are not
modelled. -/
def Configure (shared : Shared) (format : JSON) (conf : PluginConfig) :
    Option (JSON × Option String) :=
  let format :=
    { format with
      parser := NewTransitionParser shared
      state := jsonReadObject
      initState := conf.GetString "JSONStartState" ""
      timeRead := conf.GetString "JSONTimestampRead" "20060102150405"
      timeWrite := conf.GetString "JSONTimestampWrite" "2006-01-02 15:04:05 MST" }
  if !conf.HasValue "JSONDirectives" then some (format, none)
  else
    let directiveStrings := conf.GetStringArray "JSONDirectives" []
    if directiveStrings.length = 0 then some (format, none)
    else
      match parseDirectives shared directiveStrings format.initState [] with
      | (initState, .error err) => some ({ format with initState := initState }, some err)
      | (initState, .ok directives) =>
        match format.parser.AddDirectives shared directives with
        | some parser => some ({ format with initState := initState, parser := parser }, none)
        | none => none

/-! ## Vocabulary of the statements -/

/-- One round of the closing loops: `format.readEnd(nil, 0)`. -/
def endStep (format : JSON) : JSON := readEnd format [] 0

/-- The loop condition of `writeKey`: the state is one of the two array states. -/
def inArray (st : jsonReaderState) : Prop := st = jsonReadArray ∨ st = jsonReadArrayAppend

instance (st : jsonReaderState) : Decidable (inArray st) := by
  unfold inArray; infer_instance

/-- The byte `readEnd` closes a container with: 93 in an array state, else 125. -/
def closingByte (st : jsonReaderState) : Byte :=
  if st = jsonReadArray ∨ st = jsonReadArrayAppend then 93 else 125

/-- The key `writeKey` writes for `name`: quote, escaped name, quote, colon. -/
def keyBytes (name : List Byte) : List Byte := [34] ++ HTMLEscape name ++ [34, 58]

/-- The elements of an array as the parser hands them over: `val` calls. -/
def valCalls (ds : List (List Byte × ParserStateID)) : List Invocation :=
  ds.map fun d => { fn := .val, data := d.1, state := d.2 }

/-- The bytes of the elements after the first: each preceded by a comma. -/
def commaTail (xs : List (List Byte)) : List Byte :=
  (xs.map fun x => 44 :: x).flatten

/-- The relation between a formatter and a later one: same parser, and the
buffer of the later one is the buffer of the earlier one with bytes added. -/
def Extends (f g : JSON) : Prop := g.parser = f.parser ∧ ∃ x, g.message = f.message ++ x

/-- Where a reader of a JSON text stands: before a value, before a value or the
end of an array, before a key or the end of an object, before a key, before the
colon, after a complete value (`next`), inside a string literal (a key or a
value), right after a backslash in one, or inside a bare scalar (a number or one
of the three literal names). -/
inductive Pos
  | value
  | valueOrClose
  | keyOrClose
  | key
  | colon
  | next
  | inString (isKey : Bool)
  | inEscape (isKey : Bool)
  | inLit
  deriving DecidableEq, Repr

/-- The bytes that end a bare scalar: the six structural characters, the quote
and white space. -/
def isDelim (b : Byte) : Bool :=
  b = 123 ∨ b = 125 ∨ b = 91 ∨ b = 93 ∨ b = 44 ∨ b = 58 ∨ b = 34 ∨
    b = 32 ∨ b = 9 ∨ b = 10 ∨ b = 13

/-- The containers left when the innermost open container, of kind `want`, is
closed; `none` when none is open or the innermost one is of the other kind. -/
def closeKind (want : Bool) : List Bool → Option (List Bool)
  | [] => none
  | k :: rest => if k = want then some rest else none

/-- One byte read outside string literals and scalars.  The list holds the open
containers, innermost first (`true` for an object, `false` for an array);
`none` when the grammar of JSON does not allow the byte. -/
def stepPlain (stk : List Bool) (p : Pos) (b : Byte) : Option (List Bool × Pos) :=
  if b = 32 ∨ b = 9 ∨ b = 10 ∨ b = 13 then some (stk, p)
  else if b = 123 then
    if p = .value ∨ p = .valueOrClose then some (true :: stk, .keyOrClose) else none
  else if b = 91 then
    if p = .value ∨ p = .valueOrClose then some (false :: stk, .valueOrClose) else none
  else if b = 125 then
    if p = .keyOrClose ∨ p = .next then (closeKind true stk).map fun rest => (rest, .next)
    else none
  else if b = 93 then
    if p = .valueOrClose ∨ p = .next then (closeKind false stk).map fun rest => (rest, .next)
    else none
  else if b = 44 then
    if p = .next then
      match stk with
      | [] => none
      | k :: rest => some (k :: rest, if k then .key else .value)
    else none
  else if b = 58 then
    if p = .colon then some (stk, .value) else none
  else if b = 34 then
    if p = .value ∨ p = .valueOrClose then some (stk, .inString false)
    else if p = .keyOrClose ∨ p = .key then some (stk, .inString true)
    else none
  else
    if p = .value ∨ p = .valueOrClose then some (stk, .inLit) else none

/-- One byte read.  In a string literal a quote ends the literal and a
backslash takes the next byte with it; a bare scalar ends before a structural
character, a quote or white space. -/
def stepByte (stk : List Bool) (p : Pos) (b : Byte) : Option (List Bool × Pos) :=
  match p with
  | .inString k =>
    if b = 34 then some (stk, if k then .colon else .next)
    else if b = 92 then some (stk, .inEscape k)
    else some (stk, .inString k)
  | .inEscape k => some (stk, .inString k)
  | .inLit => if isDelim b then stepPlain stk .next b else some (stk, .inLit)
  | q => stepPlain stk q b

/-- The reader run over a text. -/
def run : List Bool × Pos → List Byte → Option (List Bool × Pos)
  | s, [] => some s
  | s, b :: bs =>
    match stepByte s.1 s.2 b with
    | some s2 => run s2 bs
    | none => none

/-- The structure of a JSON text: every bracket is closed by a later bracket of
its kind, elements are separated by single commas with none missing, leading or
trailing, and in an object every key is followed by a colon and one value: the
reader gets through the text, having read one value and closed every
container.  The spelling of the scalars and of the string literals is not
looked at. -/
def validStructure (text : List Byte) : Bool :=
  match run ([], .value) text with
  | some (stk, p) => stk.isEmpty && (p == .next || p == .inLit)
  | none => false

/-- A member of the top-level object: the name of the key and the bytes of the
value. -/
structure Member where
  key : List Byte
  value : List Byte
  deriving DecidableEq, Repr

/-- The bytes of a member: the key in quotes, a colon, the value. -/
def Member.bytes (m : Member) : List Byte := keyBytes m.key ++ m.value

/-- The value a `val` call (the trimmed bytes) or an `esc` call (the trimmed
bytes, escaped and in quotes) stands for. -/
def valueBytes (c : Invocation) : List Byte :=
  match c.fn with
  | .esc => [34] ++ HTMLEscape (TrimSpace c.data) ++ [34]
  | _ => TrimSpace c.data

/-- The members described by a sequence of `key`, `val` and `esc` calls, read
as the spec words it: a value belongs to the key written just before it; a key
written right after a key gives the earlier key the value `null`; a value
without a key before it gets the name of the parser state as its key.
`pending` is a key that waits for its value. -/
def membersOf (names : ParserStateID → List Byte) :
    Option (List Byte) → List Invocation → List Member
  | _, [] => []
  | pending, c :: rest =>
    match c.fn, pending with
    | .key, some k => ⟨k, [110, 117, 108, 108]⟩ :: membersOf names (some c.data) rest
    | .key, none => membersOf names (some c.data) rest
    | .val, some k => ⟨k, valueBytes c⟩ :: membersOf names none rest
    | .val, none => ⟨names c.state, valueBytes c⟩ :: membersOf names none rest
    | .esc, some k => ⟨k, valueBytes c⟩ :: membersOf names none rest
    | .esc, none => ⟨names c.state, valueBytes c⟩ :: membersOf names none rest
    | _, p => membersOf names p rest

/-- The calls that write to the buffer during one `PrepareMessage`: the calls of
the parser and, when bytes remain, the `readEscaped` call for them. -/
def allCalls (calls : List Invocation) (remains : Option (List Byte)) (state : ParserStateID) :
    List Invocation :=
  match remains with
  | some r => calls ++ [{ fn := .esc, data := r, state := state }]
  | none => calls

/-- Whether a key waits for its value after the calls. -/
def keyPending : Option (List Byte) → List Invocation → Bool
  | p, [] => p.isSome
  | _, c :: rest => keyPending (if c.fn = .key then some c.data else none) rest

/-- The members joined: a comma before each member but the first, and before
the first one as well when `sep` is set. -/
def joinMembers (sep : Bool) : List (List Byte) → List Byte
  | [] => []
  | x :: xs => (if sep then [44] else []) ++ x ++ commaTail xs

/-- What a flat run of calls has reached: `base` is the buffer up to the last
complete member, `sep` tells whether a member has been written, and a pending
key is in the buffer after `base`. -/
def Reached (f : JSON) (base : List Byte) (sep : Bool) : Option (List Byte) → Prop
  | none => f.message = base ∧ f.state = (if sep then jsonReadKey else jsonReadObject)
  | some k =>
    f.message = base ++ (if sep then [44] else []) ++ keyBytes k ∧ f.state = jsonReadValue

/-! ## The accessors of the finished buffer -/

/-- The method `String`: the bytes of the string `format.message.String()`. -/
def JSON.String (format : JSON) : List Byte := format.message

/-- Go's built-in `copy(dst, src)`: the elements of `src` are stored into `dst`
one by one until either slice ends; the result is `dst` afterwards and the
number of elements copied. -/
def copy : List Byte → List Byte → List Byte × Nat
  | _ :: ds, s :: ss => (s :: (copy ds ss).1, (copy ds ss).2 + 1)
  | [], _ => ([], 0)
  | d :: ds, [] => (d :: ds, 0)

/-- What a call of `Read` leaves: the formatter, the destination slice, and the
two results (`none` for a `nil` error). -/
structure ReadResult where
  format : JSON
  dest : List Byte
  n : Nat
  err : Option String

/-- The method `Read`: `return copy(dest, format.message.Bytes()), nil`.
`Bytes` hands out the contents of the buffer without consuming them, so the
formatter is as before. -/
def JSON.Read (format : JSON) (dest : List Byte) : ReadResult :=
  { format := format
    dest := (copy dest format.message).1
    n := (copy dest format.message).2
    err := none }

/-- The start state after the loop of `Configure` has seen the directives:
each directive replaces a start state that is still the empty string by its
`State`. -/
def startStateAfter (initState : String) (directives : List TransitionDirective) : String :=
  directives.foldl (fun i d => if i = "" then d.State else i) initState

/-! ## Counting brackets -/

/-- The number of opening brackets (bytes 91 and 123) in a run of bytes. -/
def opens (l : List Byte) : Nat := l.count 91 + l.count 123

/-- The number of closing brackets (bytes 93 and 125) in a run of bytes. -/
def closes (l : List Byte) : Nat := l.count 93 + l.count 125

/-- A run of bytes without a bracket. -/
def quiet (l : List Byte) : Prop := opens l = 0 ∧ closes l = 0

/-- The bytes the callbacks write for the data of a call and for the name of
its parser state hold no bracket, so that every bracket a call writes comes
from `readArray`, `readObject` or `readEnd`. -/
def plain (names : ParserStateID → List Byte) (c : Invocation) : Prop :=
  quiet (TrimSpace c.data) ∧ quiet (HTMLEscape (TrimSpace c.data)) ∧
    quiet (HTMLEscape c.data) ∧ quiet (HTMLEscape (names c.state))

/-- A call with its data taken away. -/
def blank (c : Invocation) : Invocation := { c with data := [] }

/-- The formatter with an empty buffer and a parser whose state names are all
empty. -/
def blankFormat (format : JSON) : JSON :=
  { format with message := [], parser := { format.parser with GetStateName := fun _ => [] } }

/-- The bytes the calls write apart from their data: the output of the same
calls with empty data and empty state names on an empty buffer.  Its brackets
are those written by `readArray`, `readObject` and `readEnd`. -/
def skeleton (format : JSON) (calls : List Invocation) : List Byte :=
  (invokeAll (blankFormat format) (calls.map blank)).message

/-- The brackets of the buffer and the depth of the stack move together: from
`f` to `g` the opening brackets gained are the closing brackets gained plus the
levels gained. -/
def Balanced (f g : JSON) : Prop :=
  opens g.message + closes f.message + f.stack.length =
    closes g.message + opens f.message + g.stack.length

/-- Two formatters in the same state with the same nesting stack. -/
def Alike (f g : JSON) : Prop := f.state = g.state ∧ f.stack = g.stack

/-! ## The call sequences the assembler is built for -/

/-- A configuration of the assembler as far as the order of the calls is
concerned: the state, the nesting stack, and whether the last call was an `end`
that closed a container or found none open while no key waited for its value
(`closed`).  After such an `end` the code is in state `jsonReadValue`, or back
in the state it was in when the container was opened, although a value has
just been completed. -/
structure Cfg where
  state : jsonReaderState
  stack : List jsonReaderState
  closed : Bool
  deriving DecidableEq, Repr

/-- A `key` call is in place at the start of an object, after a member, and
after a key (which then gets `null`); not inside an array and not right after
an `end` that set `closed`. -/
def admitKey (c : Cfg) : Option Cfg :=
  match c.state, c.closed with
  | jsonReadObject, _ => some ⟨jsonReadValue, c.stack, false⟩
  | jsonReadKey, _ => some ⟨jsonReadValue, c.stack, false⟩
  | jsonReadValue, false => some ⟨jsonReadValue, c.stack, false⟩
  | _, _ => none

/-- A `val` or `esc` call is in place in an object (after a key, or with the
key generated from the parser state) and in an array as its first element or
after an element; not right after an `end` that set `closed`, unless it closed
an element after the first of an array. -/
def admitValue (c : Cfg) : Option Cfg :=
  match c.state, c.closed with
  | jsonReadObject, _ => some ⟨jsonReadKey, c.stack, false⟩
  | jsonReadKey, _ => some ⟨jsonReadKey, c.stack, false⟩
  | jsonReadValue, false => some ⟨jsonReadKey, c.stack, false⟩
  | jsonReadArray, false => some ⟨jsonReadArrayAppend, c.stack, false⟩
  | jsonReadArrayAppend, _ => some ⟨jsonReadArrayAppend, c.stack, false⟩
  | _, _ => none

/-- An `arr` or `obj` call is in place where a value is expected: after a key
and in an array, with the same exception as for a value; no key is generated
for a container. -/
def admitOpen (inner : jsonReaderState) (c : Cfg) : Option Cfg :=
  match c.state, c.closed with
  | jsonReadValue, false => some ⟨inner, c.stack ++ [c.state], false⟩
  | jsonReadArray, false => some ⟨inner, c.stack ++ [c.state], false⟩
  | jsonReadArrayAppend, _ => some ⟨inner, c.stack ++ [c.state], false⟩
  | _, _ => none

/-- An `end` call is in place unless it would close a container in which a
key waits for its value.  With containers open it closes the innermost one;
with none open it writes nothing: while a key waits for its value nothing
changes, and otherwise the top-level object is marked as complete. -/
def admitEnd (c : Cfg) : Option Cfg :=
  match c.state, c.closed with
  | jsonReadValue, false => if c.stack = [] then some c else none
  | jsonReadArrayEnd, _ => none
  | jsonReadObjectEnd, _ => none
  | _, _ =>
    match c.stack.getLast? with
    | none =>
      if c.state = jsonReadArray ∨ c.state = jsonReadArrayAppend then none
      else some ⟨jsonReadValue, [], true⟩
    | some top =>
      if c.stack.dropLast = [] then some ⟨jsonReadValue, [], true⟩
      else some ⟨top, c.stack.dropLast, true⟩

/-- The configuration after a call that is in place, `none` for a call that is
not, the data of the call left aside.  The combined calls are a value followed
by `end`. -/
def admitFn (c : Cfg) (fn : ParsedFunc) : Option Cfg :=
  match fn with
  | .key => admitKey c
  | .val => admitValue c
  | .esc => admitValue c
  | .arr => admitOpen jsonReadArray c
  | .obj => admitOpen jsonReadObject c
  | .end_ => admitEnd c
  | .val_end => (admitValue c).bind admitEnd
  | .esc_end => (admitValue c).bind admitEnd

/-- The configurations in which the input may end: no key waits for its value,
and the containers still open are closed by the loop of `PrepareMessage`, which
runs in the array states and in state `jsonReadObject` and goes on while the
state it finds on the stack is an array state. -/
def finishable (c : Cfg) : Bool :=
  if c.stack = [] then
    decide (c.state = jsonReadObject ∨ c.state = jsonReadKey ∨
      (c.state = jsonReadValue ∧ c.closed = true))
  else
    decide ((c.state = jsonReadObject ∨ c.state = jsonReadArray ∨
        c.state = jsonReadArrayAppend) ∧
      ∀ x ∈ c.stack.tail, x = jsonReadArray ∨ x = jsonReadArrayAppend)

/-- Bytes that can stand between the quotes of a string literal: a quote only
right after a backslash, and no backslash left without the byte it takes with
it.  The flag tells that the byte before was such a backslash. -/
def stringBody : Bool → List Byte → Bool
  | escaped, [] => !escaped
  | true, _ :: rest => stringBody false rest
  | false, b :: rest =>
    if b = 34 then false else if b = 92 then stringBody true rest else stringBody false rest

/-- Bytes that can be written between quotes as a key or as a string value. -/
def textOK (l : List Byte) : Prop := stringBody false l = true

/-- The data of a call can be written where the call is made, in state `st`:
the data of `key` and the trimmed data of `esc` can stand between quotes, the
trimmed data of `val` has itself the structure of a JSON text, and in the
states in which `val` and `esc` make the key from the name of the parser state
(the start of an object and after a member) that name can stand between
quotes. -/
def dataOK (names : ParserStateID → List Byte) (st : jsonReaderState) (c : Invocation) : Prop :=
  match c.fn with
  | .key => textOK c.data
  | .val =>
    validStructure (TrimSpace c.data) = true ∧
      (st = jsonReadObject ∨ st = jsonReadKey → textOK (names c.state))
  | .val_end =>
    validStructure (TrimSpace c.data) = true ∧
      (st = jsonReadObject ∨ st = jsonReadKey → textOK (names c.state))
  | .esc =>
    textOK (TrimSpace c.data) ∧
      (st = jsonReadObject ∨ st = jsonReadKey → textOK (names c.state))
  | .esc_end =>
    textOK (TrimSpace c.data) ∧
      (st = jsonReadObject ∨ st = jsonReadKey → textOK (names c.state))
  | _ => True

/-- The configuration of a formatter when `PrepareMessage` has written the
opening brace. -/
def startCfg : Cfg := ⟨jsonReadObject, [], false⟩

instance (l : List Byte) : Decidable (textOK l) := by
  unfold textOK; infer_instance

instance (names : ParserStateID → List Byte) (st : jsonReaderState) (c : Invocation) :
    Decidable (dataOK names st c) := by
  unfold dataOK; split <;> infer_instance

/-- The configuration after a call that is in place and whose data can be
written there. -/
def admitCall (names : ParserStateID → List Byte) (c : Cfg) (x : Invocation) : Option Cfg :=
  if dataOK names c.state x then admitFn c x.fn else none

/-- The configuration after a sequence of calls that are all in place, with
data that can be written. -/
def admitAll (names : ParserStateID → List Byte) : Cfg → List Invocation → Option Cfg
  | c, [] => some c
  | c, x :: rest => (admitCall names c x).bind fun c2 => admitAll names c2 rest

/-- The calls of a message are all in place, with data that can be written, and
the input ends where it may. -/
def admitted (names : ParserStateID → List Byte) (calls : List Invocation) : Bool :=
  match admitAll names startCfg calls with
  | some c => finishable c
  | none => false

/-! ## Test fixtures -/

/-- A parser whose states 0 and 1 are named `s` and `t`. -/
def demoParser : TransitionParser :=
  { directives := [], GetStateName := fun id => if id = 0 then [115] else [116] }

/-- A formatter as `Configure` leaves it, with an empty nesting stack. -/
def fresh : JSON :=
  { message := [], parser := demoParser, state := jsonReadObject, stack := [],
    initState := "", timeRead := "20060102150405", timeWrite := "2006-01-02 15:04:05 MST" }

/-- A directive compiler for the examples: it accepts the one string
`s:a:s::key` and rejects every other string with the text `parse error`;
`AddDirectives` returns when no directive has the empty string as its
`State`. -/
def demoShared : Shared :=
  { ParseTransitionDirective := fun d _ =>
      if d = "s:a:s::key" then
        .ok { State := "s", Token := "a", NextState := "s", Flags := [], Callback := "key" }
      else .error "parse error"
    stateNames := fun _ _ => [115]
    addDirectivesReturns := fun _ ds => ds.all fun d => decide (d.State ≠ "") }

/-- A configuration whose `JSONDirectives` are a string that parses and one
with three of the five fields. -/
def demoConf : PluginConfig :=
  { GetString := fun _ d => d
    HasValue := fun k => k = "JSONDirectives"
    GetStringArray := fun k d => if k = "JSONDirectives" then ["s:a:s::key", "s:a:s"] else d }

/-- A directive compiler for the examples of the start state.  As in the
grammar `State:Token:NextState:Flags:Function`, the `State` of a directive is
the text before the first colon: it is `s` for `s:a:s::key`, `t` for
`t:b:t::val` and the empty string for `:a:s::key`.  Other strings are
rejected.  `AddDirectives` returns when no directive has the empty string as
its `State`. -/
def stateShared : Shared :=
  { ParseTransitionDirective := fun d _ =>
      if d = "s:a:s::key" then
        .ok { State := "s", Token := "a", NextState := "s", Flags := [], Callback := "key" }
      else if d = "t:b:t::val" then
        .ok { State := "t", Token := "b", NextState := "t", Flags := [], Callback := "val" }
      else if d = ":a:s::key" then
        .ok { State := "", Token := "a", NextState := "s", Flags := [], Callback := "key" }
      else .error "parse error"
    stateNames := fun _ _ => [115]
    addDirectivesReturns := fun _ ds => ds.all fun d => decide (d.State ≠ "") }

/-- A configuration without `JSONStartState` whose directives start in the
states `t` and `s`. -/
def stateConf : PluginConfig :=
  { GetString := fun _ d => d
    HasValue := fun k => k = "JSONDirectives"
    GetStringArray := fun k d => if k = "JSONDirectives" then ["t:b:t::val", "s:a:s::key"] else d }

/-- A configuration without `JSONStartState` whose first directive has the
empty string as its `State`. -/
def emptyStateConf : PluginConfig :=
  { GetString := fun _ d => d
    HasValue := fun k => k = "JSONDirectives"
    GetStringArray := fun k d => if k = "JSONDirectives" then [":a:s::key", "s:a:s::key"] else d }

/-- A call with sample data: the key `a`, the string `"v"` as the data of `val`
(quotes included, so that it cannot run into a neighbouring scalar) and `x`
as the data of `esc`; the parser state is 0, named `s`. -/
def sampleCall (fn : ParsedFunc) : Invocation :=
  match fn with
  | .key => { fn := fn, data := [97], state := 0 }
  | .val => { fn := fn, data := [34, 118, 34], state := 0 }
  | .val_end => { fn := fn, data := [34, 118, 34], state := 0 }
  | _ => { fn := fn, data := [120], state := 0 }

/-- All sequences of `n` callbacks. -/
def sequences : Nat → List (List ParsedFunc)
  | 0 => [[]]
  | n + 1 =>
    (sequences n).flatMap fun s =>
      [.key :: s, .val :: s, .esc :: s, .arr :: s, .obj :: s, .end_ :: s, .val_end :: s,
        .esc_end :: s]

/-! # Theorems -/

/-! ## `readEnd` -/

theorem readEnd_nil (format : JSON) (data : List Byte) (state : ParserStateID)
    (h : format.stack = []) :
    readEnd format data state = { format with stack := [], state := jsonReadValue } := by
  simp [readEnd, h]

theorem readEnd_snoc (format : JSON) (data : List Byte) (state : ParserStateID)
    (rest : List jsonReaderState) (top : jsonReaderState) (h : format.stack = rest ++ [top]) :
    readEnd format data state =
      { format with
        message := format.message ++ [closingByte format.state]
        stack := rest
        state := if rest = [] then jsonReadValue else top } := by
  rcases format with ⟨msg, prs, st, stk, i, tr, tw⟩
  simp only at h
  subst h
  cases rest with
  | nil => cases st <;> simp [readEnd, closingByte, JSON.Write]
  | cons a as =>
    cases st <;> simp [readEnd, closingByte, JSON.Write, List.getElem_append_right]

theorem endStep_nil (format : JSON) (h : format.stack = []) :
    endStep format = { format with stack := [], state := jsonReadValue } :=
  readEnd_nil format [] 0 h

theorem endStep_snoc (format : JSON) (rest : List jsonReaderState) (top : jsonReaderState)
    (h : format.stack = rest ++ [top]) :
    endStep format =
      { format with
        message := format.message ++ [closingByte format.state]
        stack := rest
        state := if rest = [] then jsonReadValue else top } :=
  readEnd_snoc format [] 0 rest top h

/-- When at most one level is open, a round of `readEnd` leaves the state
`jsonReadValue` and the stack empty. -/
theorem endStep_short (format : JSON) (h : format.stack.length ≤ 1) :
    (endStep format).state = jsonReadValue ∧ (endStep format).stack = [] := by
  rcases hs : format.stack with _ | ⟨a, _ | ⟨b, t⟩⟩
  · simp [endStep_nil format hs]
  · have := endStep_snoc format [] a (by simpa using hs)
    simp [this]
  · simp [hs] at h

/-- With two or more levels open, a round of `readEnd` in an array state writes
93 and removes one level. -/
theorem endStep_long (format : JSON) (h : 2 ≤ format.stack.length) (ha : inArray format.state) :
    (endStep format).message = format.message ++ [93] ∧
      (endStep format).stack.length = format.stack.length - 1 := by
  obtain ⟨rest, top, hs⟩ : ∃ rest top, format.stack = rest ++ [top] := by
    have hne : format.stack ≠ [] := by
      intro h0; simp [h0] at h
    exact ⟨format.stack.dropLast, format.stack.getLast hne,
      (List.dropLast_append_getLast hne).symm⟩
  have hc : closingByte format.state = 93 := by
    unfold inArray at ha
    simp [closingByte, ha]
  rw [endStep_snoc format rest top hs]
  simp [hs, hc]

/-- The loop of `writeKey` stops by its condition after at most
`max 1 (len stack)` rounds; any fuel from that number on gives the same result.
The rounds write one 93 each unless the stack was empty from the start. -/
theorem writeKeyLoop_rounds (k : Nat) :
    ∀ format : JSON, format.stack.length ≤ k →
      ∃ n, n ≤ max 1 format.stack.length ∧
        (∀ m, m < n → inArray ((endStep^[m]) format).state) ∧
        ¬ inArray ((endStep^[n]) format).state ∧
        (∀ fuel, n ≤ fuel → writeKeyLoop fuel format = (endStep^[n]) format) ∧
        ((endStep^[n]) format).message =
          format.message ++ List.replicate (if format.stack = [] then 0 else n) 93 ∧
        ((endStep^[n]) format).stack.length = format.stack.length - n ∧
        ((endStep^[n]) format).parser = format.parser := by
  induction k with
  | zero =>
    intro format hk
    by_cases ha : inArray format.state
    · refine ⟨1, by simp, ?_, ?_, ?_, ?_, ?_, ?_⟩
      · intro m hm
        have : m = 0 := by omega
        subst this
        simpa using ha
      · have := (endStep_short format (by omega)).1
        simp [this, inArray]
      · intro fuel hf
        obtain ⟨f, rfl⟩ : ∃ f, fuel = f + 1 := ⟨fuel - 1, by omega⟩
        have hst := (endStep_short format (by omega)).1
        have ha2 : format.state = jsonReadArray ∨ format.state = jsonReadArrayAppend := ha
        cases f with
        | zero => simp [writeKeyLoop, ha2, endStep]
        | succ f =>
          have hst2 : (readEnd format [] 0).state = jsonReadValue := hst
          simp [writeKeyLoop, ha2, endStep, hst2]
      · have h0 : format.stack = [] := List.length_eq_zero.mp (by omega)
        simp [endStep_nil format h0, h0]
      · have h0 : format.stack = [] := List.length_eq_zero.mp (by omega)
        simp [endStep_nil format h0, h0]
      · have h0 : format.stack = [] := List.length_eq_zero.mp (by omega)
        simp [endStep_nil format h0]
    · refine ⟨0, by simp, by simp, by simpa using ha, ?_, by simp, by simp, by simp⟩
      intro fuel _
      have ha2 : ¬ (format.state = jsonReadArray ∨ format.state = jsonReadArrayAppend) := ha
      cases fuel with
      | zero => simp [writeKeyLoop]
      | succ f => simp [writeKeyLoop, ha2]
  | succ k ih =>
    intro format hk
    by_cases ha : inArray format.state
    · have ha2 : format.state = jsonReadArray ∨ format.state = jsonReadArrayAppend := ha
      by_cases hlen : format.stack.length ≤ 1
      · have hst := (endStep_short format hlen).1
        have hstk := (endStep_short format hlen).2
        refine ⟨1, by simp, ?_, ?_, ?_, ?_, ?_, ?_⟩
        · intro m hm
          have : m = 0 := by omega
          subst this
          simpa using ha
        · simp [hst, inArray]
        · intro fuel hf
          obtain ⟨f, rfl⟩ : ∃ f, fuel = f + 1 := ⟨fuel - 1, by omega⟩
          have hst2 : (readEnd format [] 0).state = jsonReadValue := hst
          cases f with
          | zero => simp [writeKeyLoop, ha2, endStep]
          | succ f => simp [writeKeyLoop, ha2, endStep, hst2]
        · rcases hs : format.stack with _ | ⟨a, _ | ⟨b, t⟩⟩
          · simp [endStep_nil format hs]
          · have hc : closingByte format.state = 93 := by simp [closingByte, ha2]
            have := endStep_snoc format [] a (by simpa using hs)
            simp [this, hc]
          · simp [hs] at hlen
        · simp [hstk]
          omega
        · rcases hs : format.stack with _ | ⟨a, _ | ⟨b, t⟩⟩
          · simp [endStep_nil format hs]
          · have := endStep_snoc format [] a (by simpa using hs)
            simp [this]
          · simp [hs] at hlen
      · have hlen2 : 2 ≤ format.stack.length := by omega
        obtain ⟨hmsg, hstk⟩ := endStep_long format hlen2 ha
        have hpar : (endStep format).parser = format.parser := by
          obtain ⟨rest, top, hs⟩ : ∃ rest top, format.stack = rest ++ [top] := by
            have hne : format.stack ≠ [] := by
              intro h0; simp [h0] at hlen2
            exact ⟨format.stack.dropLast, format.stack.getLast hne,
              (List.dropLast_append_getLast hne).symm⟩
          simp [endStep_snoc format rest top hs]
        obtain ⟨n, hn, hbefore, hafter, hfuel, hm, hs, hp⟩ := ih (endStep format) (by omega)
        have hne : format.stack ≠ [] := by
          intro h0; simp [h0] at hlen2
        have hne2 : (endStep format).stack ≠ [] := by
          intro h0
          have : (endStep format).stack.length = 0 := by simp [h0]
          omega
        refine ⟨n + 1, ?_, ?_, ?_, ?_, ?_, ?_, ?_⟩
        · have : max 1 (endStep format).stack.length = (endStep format).stack.length := by
            apply max_eq_right; omega
          have h2 : max 1 format.stack.length = format.stack.length := by
            apply max_eq_right; omega
          omega
        · intro m hm2
          cases m with
          | zero => simpa using ha
          | succ m =>
            rw [Function.iterate_succ_apply]
            exact hbefore m (by omega)
        · rw [Function.iterate_succ_apply]; exact hafter
        · intro fuel hf
          obtain ⟨f, rfl⟩ : ∃ f, fuel = f + 1 := ⟨fuel - 1, by omega⟩
          rw [Function.iterate_succ_apply, ← hfuel f (by omega)]
          simp [writeKeyLoop, ha2, endStep]
        · rw [Function.iterate_succ_apply, hm, hmsg]
          simp [hne, hne2, List.replicate_succ]
        · rw [Function.iterate_succ_apply, hs, hstk]
          omega
        · rw [Function.iterate_succ_apply, hp, hpar]
    · refine ⟨0, by simp, by simp, by simpa using ha, ?_, by simp, by simp, by simp⟩
      intro fuel _
      have ha2 : ¬ (format.state = jsonReadArray ∨ format.state = jsonReadArrayAppend) := ha
      cases fuel with
      | zero => simp [writeKeyLoop]
      | succ f => simp [writeKeyLoop, ha2]

/-! ## C9: `readEnd` -/

/-- C9. `readEnd` on an empty stack writes nothing, leaves the stack empty and
sets the state to `jsonReadValue`; on a stack `rest ++ [top]` it writes exactly
one closing byte (93 in an array state, 125 otherwise), leaves the stack `rest`,
and sets the state to `jsonReadValue` when `rest` is empty and to the popped
entry `top` otherwise. -/
theorem readEnd_contract (format : JSON) (data : List Byte) (state : ParserStateID) :
    (format.stack = [] →
      readEnd format data state = { format with stack := [], state := jsonReadValue }) ∧
    (∀ rest top, format.stack = rest ++ [top] →
      readEnd format data state =
        { format with
          message := format.message ++
            [if format.state = jsonReadArray ∨ format.state = jsonReadArrayAppend then 93
              else 125]
          stack := rest
          state := if rest = [] then jsonReadValue else top }) := by
  refine ⟨readEnd_nil format data state, ?_⟩
  intro rest top h
  simpa [closingByte] using readEnd_snoc format data state rest top h

/-- C9 at a stack of two levels in an array state, and at the empty stack. -/
theorem readEnd_contract_witness :
    readEnd { fresh with stack := [jsonReadValue, jsonReadKey], state := jsonReadArrayAppend }
        [] 0 =
      { fresh with message := [93], stack := [jsonReadValue], state := jsonReadKey } ∧
    readEnd { fresh with state := jsonReadArray } [] 0 =
      { fresh with stack := [], state := jsonReadValue } :=
  ⟨by
    simpa [fresh] using
      (readEnd_contract
        { fresh with stack := [jsonReadValue, jsonReadKey], state := jsonReadArrayAppend }
        [] 0).2 [jsonReadValue] jsonReadKey rfl,
   (readEnd_contract { fresh with state := jsonReadArray } [] 0).1 rfl⟩

/-! ## C5: `readKey` closes the open arrays first -/

/-- C5. `readKey` runs some number `n` of `readEnd` rounds with
`n ≤ max 1 (len stack)`: the state is an array state before each of them and is
none after the last, the loop gives that result for every fuel from `n` on (it
stops by its condition), the rounds wrote one 93 each (none when the stack
was empty from the start); the key is written after these bytes, preceded by
`null` exactly when the state then is `jsonReadValue` and by a comma unless it is
`jsonReadObject`, and the state is left `jsonReadValue`. -/
theorem readKey_closes_arrays (format : JSON) (data : List Byte) (state : ParserStateID) :
    ∃ n, n ≤ max 1 format.stack.length ∧
      (∀ m, m < n → inArray ((endStep^[m]) format).state) ∧
      ¬ inArray ((endStep^[n]) format).state ∧
      (∀ fuel, n ≤ fuel → writeKeyLoop fuel format = (endStep^[n]) format) ∧
      ((endStep^[n]) format).message =
        format.message ++ List.replicate (if format.stack = [] then 0 else n) 93 ∧
      (readKey format data state).message =
        ((endStep^[n]) format).message ++
          (if ((endStep^[n]) format).state = jsonReadValue then [110, 117, 108, 108] else []) ++
          (if ((endStep^[n]) format).state = jsonReadObject then [] else [44]) ++
          [34] ++ HTMLEscape data ++ [34, 58] ∧
      (readKey format data state).stack = ((endStep^[n]) format).stack ∧
      (readKey format data state).state = jsonReadValue := by
  obtain ⟨n, hn, hbefore, hafter, hfuel, hmsg, -, -⟩ :=
    writeKeyLoop_rounds format.stack.length format le_rfl
  refine ⟨n, hn, hbefore, hafter, hfuel, hmsg, ?_, ?_, by simp [readKey]⟩
  · have hl : writeKeyLoop (format.stack.length + 1) format = (endStep^[n]) format :=
      hfuel _ (by
        have : max 1 format.stack.length ≤ format.stack.length + 1 := by
          apply max_le <;> omega
        omega)
    simp only [readKey, writeKey, hl]
    generalize (endStep^[n]) format = g at hafter ⊢
    rcases g with ⟨msg, prs, st, stk, i, tr, tw⟩
    cases st <;> simp [JSON.Write, jsonReaderState.toNat, inArray] at hafter ⊢
  · have hl : writeKeyLoop (format.stack.length + 1) format = (endStep^[n]) format :=
      hfuel _ (by
        have : max 1 format.stack.length ≤ format.stack.length + 1 := by
          apply max_le <;> omega
        omega)
    simp only [readKey, writeKey, hl]
    generalize (endStep^[n]) format = g
    rcases g with ⟨msg, prs, st, stk, i, tr, tw⟩
    cases st <;> simp [JSON.Write, jsonReaderState.toNat]

/-- A key written inside two nested arrays: `readKey` runs two rounds of
`readEnd`, and the buffer gets 93 twice, `null`, a comma and the key `k`. -/
theorem readKey_nested_example :
    (readKey { fresh with stack := [jsonReadValue, jsonReadArray], state := jsonReadArrayAppend }
        [107] 0).message = [93, 93, 110, 117, 108, 108, 44, 34, 107, 34, 58] ∧
      (readKey { fresh with stack := [jsonReadValue, jsonReadArray], state := jsonReadArrayAppend }
        [107] 0).stack = [] := by
  decide

/-! ## C7: keys generated from the parser state -/

/-- C7. In state `jsonReadObject` or `jsonReadKey`, `readValue` and `readEscaped`
first write the key made of the escaped name of parser state `s` (after a comma
exactly in state `jsonReadKey`), then the value, and leave the state
`jsonReadKey`; a second call with the same `s` writes the same key again.  In
the states `jsonReadValue`, `jsonReadArray` and `jsonReadArrayAppend` only the
value is written (after a comma in `jsonReadArrayAppend`). -/
theorem auto_key (format : JSON) (data data2 : List Byte) (s : ParserStateID) :
    (format.state = jsonReadObject ∨ format.state = jsonReadKey →
      readValue format data s =
        { format with
          message := format.message ++ (if format.state = jsonReadKey then [44] else []) ++
            keyBytes (format.parser.GetStateName s) ++ TrimSpace data
          state := jsonReadKey } ∧
      readEscaped format data s =
        { format with
          message := format.message ++ (if format.state = jsonReadKey then [44] else []) ++
            keyBytes (format.parser.GetStateName s) ++
            ([34] ++ HTMLEscape (TrimSpace data) ++ [34])
          state := jsonReadKey } ∧
      (readValue (readValue format data s) data2 s).message =
        format.message ++ (if format.state = jsonReadKey then [44] else []) ++
          keyBytes (format.parser.GetStateName s) ++ TrimSpace data ++ [44] ++
          keyBytes (format.parser.GetStateName s) ++ TrimSpace data2 ∧
      (readEscaped (readEscaped format data s) data2 s).message =
        format.message ++ (if format.state = jsonReadKey then [44] else []) ++
          keyBytes (format.parser.GetStateName s) ++
          ([34] ++ HTMLEscape (TrimSpace data) ++ [34]) ++ [44] ++
          keyBytes (format.parser.GetStateName s) ++
          ([34] ++ HTMLEscape (TrimSpace data2) ++ [34])) ∧
    (format.state = jsonReadValue →
      readValue format data s =
        { format with message := format.message ++ TrimSpace data, state := jsonReadKey } ∧
      readEscaped format data s =
        { format with
          message := format.message ++ ([34] ++ HTMLEscape (TrimSpace data) ++ [34])
          state := jsonReadKey }) ∧
    (format.state = jsonReadArray →
      readValue format data s =
        { format with
          message := format.message ++ TrimSpace data, state := jsonReadArrayAppend } ∧
      readEscaped format data s =
        { format with
          message := format.message ++ ([34] ++ HTMLEscape (TrimSpace data) ++ [34])
          state := jsonReadArrayAppend }) ∧
    (format.state = jsonReadArrayAppend →
      readValue format data s =
        { format with message := format.message ++ [44] ++ TrimSpace data } ∧
      readEscaped format data s =
        { format with
          message := format.message ++ [44] ++
            ([34] ++ HTMLEscape (TrimSpace data) ++ [34]) }) := by
  rcases format with ⟨msg, prs, st, stk, i, tr, tw⟩
  refine ⟨?_, ?_, ?_, ?_⟩
  · rintro (h | h) <;> simp only at h <;> subst h <;>
      simp [readValue, readEscaped, writeKey, writeKeyLoop, JSON.Write, keyBytes,
        jsonReaderState.toNat]
  · intro h; simp only at h; subst h
    simp [readValue, readEscaped, JSON.Write]
  · intro h; simp only at h; subst h
    simp [readValue, readEscaped, JSON.Write]
  · intro h; simp only at h; subst h
    simp [readValue, readEscaped, JSON.Write]

/-- C7 on a formatter in state `jsonReadObject`: two values read in parser
state 0, named `s`, give the key `s` twice. -/
theorem auto_key_witness :
    (readValue (readValue fresh [49] 0) [50] 0).message =
      [34, 115, 34, 58, 49, 44, 34, 115, 34, 58, 50] := by
  rw [((auto_key fresh [49] [50] 0).1 (Or.inl rfl)).2.2.1]
  decide

/-! ## C8: arrays -/

theorem intercalate_cons (x : List Byte) (xs : List (List Byte)) :
    List.intercalate [44] (x :: xs) = x ++ commaTail xs := by
  induction xs generalizing x with
  | nil => simp [List.intercalate, commaTail]
  | cons y ys ih =>
    have h := ih y
    simp only [List.intercalate, List.intersperse, commaTail, List.map_cons,
      List.flatten_cons] at h ⊢
    simp [h]

/-- In state `jsonReadArrayAppend` a run of `val` calls appends every element
after a comma and changes nothing else. -/
theorem invokeAll_valCalls_append (ds : List (List Byte × ParserStateID)) :
    ∀ format : JSON, format.state = jsonReadArrayAppend →
      invokeAll format (valCalls ds) =
        { format with
          message := format.message ++ commaTail (ds.map fun d => TrimSpace d.1) } := by
  induction ds with
  | nil => intro format _; simp [invokeAll, valCalls, commaTail]
  | cons d ds ih =>
    intro format h
    have hstep : invoke format { fn := .val, data := d.1, state := d.2 } =
        { format with message := format.message ++ [44] ++ TrimSpace d.1 } := by
      rcases format with ⟨msg, prs, st, stk, i, tr, tw⟩
      simp only at h
      subst h
      simp [invoke, readValue, JSON.Write]
    have hrec := ih { format with message := format.message ++ [44] ++ TrimSpace d.1 } h
    simp only [invokeAll, valCalls, List.map_cons, List.foldl_cons] at hrec ⊢
    rw [hstep, hrec]
    simp [commaTail]

/-- C8. From any state other than `jsonReadArrayAppend`, the calls `arr`, then
`val` for each of `d1 .. dN`, then `end` append exactly the bytes 91, the
trimmed elements separated by single commas, 93 (so 91 93 for no element), and
leave the nesting stack as it was. -/
theorem array_property (format : JSON) (ds : List (List Byte × ParserStateID))
    (a e : List Byte) (sa se : ParserStateID) (h : format.state ≠ jsonReadArrayAppend) :
    (invokeAll format
        ([{ fn := .arr, data := a, state := sa }] ++ valCalls ds ++
          [{ fn := .end_, data := e, state := se }])).message =
      format.message ++ [91] ++ List.intercalate [44] (ds.map fun d => TrimSpace d.1) ++ [93] ∧
    (invokeAll format
        ([{ fn := .arr, data := a, state := sa }] ++ valCalls ds ++
          [{ fn := .end_, data := e, state := se }])).stack = format.stack := by
  have harr : invoke format { fn := .arr, data := a, state := sa } =
      { format with
        message := format.message ++ [91]
        stack := format.stack ++ [format.state]
        state := jsonReadArray } := by
    simp [invoke, readArray, h, JSON.Write]
  cases ds with
  | nil =>
    simp only [invokeAll, valCalls, List.map_nil, List.append_nil, List.singleton_append,
      List.foldl_cons, List.foldl_nil, harr]
    simp only [invoke]
    rw [readEnd_snoc _ e se format.stack format.state rfl]
    simp [closingByte, List.intercalate]
  | cons d ds =>
    have hfirst : invoke
        { format with
          message := format.message ++ [91]
          stack := format.stack ++ [format.state]
          state := jsonReadArray } { fn := .val, data := d.1, state := d.2 } =
        { format with
          message := format.message ++ [91] ++ TrimSpace d.1
          stack := format.stack ++ [format.state]
          state := jsonReadArrayAppend } := by
      simp [invoke, readValue, JSON.Write]
    have hrest := invokeAll_valCalls_append ds
      { format with
        message := format.message ++ [91] ++ TrimSpace d.1
        stack := format.stack ++ [format.state]
        state := jsonReadArrayAppend } rfl
    simp only [invokeAll] at hrest
    simp only [invokeAll, valCalls, List.map_cons, List.singleton_append, List.cons_append,
      List.foldl_cons, List.foldl_append, List.foldl_nil, harr, hfirst]
    simp only [valCalls] at hrest
    rw [hrest]
    simp only [invoke]
    rw [readEnd_snoc _ e se format.stack format.state rfl]
    simp [closingByte, intercalate_cons]

/-- C8 for the elements 1 and 2 (the second one padded with blanks) after a
key. -/
theorem array_property_witness :
    jsonReadValue ≠ jsonReadArrayAppend ∧
    (invokeAll { fresh with state := jsonReadValue }
        ([{ fn := .arr, data := [], state := 0 }] ++ valCalls [([49], 0), ([32, 50, 32], 0)] ++
          [{ fn := .end_, data := [], state := 0 }])).message = [91, 49, 44, 50, 93] := by
  refine ⟨by decide, ?_⟩
  rw [(array_property { fresh with state := jsonReadValue } [([49], 0), ([32, 50, 32], 0)]
    [] [] 0 0 (by decide)).1]
  decide

/-! ## C10: errors of `Configure` -/

/-- The loop of `Configure` either parses every string and returns the
directives collected, or stops at the first string that does not parse and
returns the error text of the parser, a colon, a blank and that string. -/
theorem parseDirectives_result (shared : Shared) (strings : List String) :
    ∀ (initState : String) (directives : List TransitionDirective),
      ((∀ x ∈ strings, ∃ dir, shared.ParseTransitionDirective x parserFunctions = .ok dir) ∧
        ∃ init2 ds, parseDirectives shared strings initState directives = (init2, .ok ds)) ∨
      (∃ before d after e init2,
        strings = before ++ d :: after ∧
        (∀ x ∈ before, ∃ dir, shared.ParseTransitionDirective x parserFunctions = .ok dir) ∧
        shared.ParseTransitionDirective d parserFunctions = .error e ∧
        parseDirectives shared strings initState directives =
          (init2, .error (e ++ ": " ++ d))) := by
  induction strings with
  | nil =>
    intro initState directives
    exact Or.inl ⟨by simp, initState, directives, rfl⟩
  | cons x rest ih =>
    intro initState directives
    cases hx : shared.ParseTransitionDirective x parserFunctions with
    | error e =>
      refine Or.inr ⟨[], x, rest, e, initState, rfl, by simp, hx, ?_⟩
      simp [parseDirectives, hx]
    | ok dir =>
      rcases ih (if initState = "" then dir.State else initState) (directives ++ [dir]) with
        ⟨hall, init2, ds, hres⟩ | ⟨before, d, after, e, init2, hsplit, hbefore, hd, hres⟩
      · refine Or.inl ⟨?_, init2, ds, ?_⟩
        · intro y hy
          rcases List.mem_cons.mp hy with rfl | hy
          · exact ⟨dir, hx⟩
          · exact hall y hy
        · simp [parseDirectives, hx, hres]
      · refine Or.inr ⟨x :: before, d, after, e, init2, by simp [hsplit], ?_, hd, ?_⟩
        · intro y hy
          rcases List.mem_cons.mp hy with rfl | hy
          · exact ⟨dir, hx⟩
          · exact hbefore y hy
        · simp [parseDirectives, hx, hres]

/-- C10. `Configure` returns an error exactly when the setting `JSONDirectives`
is present and one of its strings does not parse.  The error then is the
parser's error text followed by a colon, a blank and the first such string, and
the parser of the formatter holds no directive.  Without the setting, or with
an empty list, `Configure` returns and the error is `nil`. -/
theorem Configure_error (shared : Shared) (format : JSON) (conf : PluginConfig) :
    ((∃ result err, Configure shared format conf = some (result, some err)) ↔
      (conf.HasValue "JSONDirectives" = true ∧
        ∃ d ∈ conf.GetStringArray "JSONDirectives" [],
          ∃ e, shared.ParseTransitionDirective d parserFunctions = .error e)) ∧
    (∀ result err, Configure shared format conf = some (result, some err) →
      ∃ before d after e,
        conf.GetStringArray "JSONDirectives" [] = before ++ d :: after ∧
        (∀ x ∈ before, ∃ dir, shared.ParseTransitionDirective x parserFunctions = .ok dir) ∧
        shared.ParseTransitionDirective d parserFunctions = .error e ∧
        err = e ++ ": " ++ d ∧
        result.parser.directives = []) ∧
    (conf.HasValue "JSONDirectives" = false ∨ conf.GetStringArray "JSONDirectives" [] = [] →
      ∃ result, Configure shared format conf = some (result, none)) := by
  cases hv : conf.HasValue "JSONDirectives" with
  | false =>
    refine ⟨?_, ?_, ?_⟩ <;> simp [Configure, hv]
  | true =>
    cases hl : conf.GetStringArray "JSONDirectives" [] with
    | nil => refine ⟨?_, ?_, ?_⟩ <;> simp [Configure, hv, hl]
    | cons x rest =>
      rcases parseDirectives_result shared (x :: rest) (conf.GetString "JSONStartState" "") []
        with ⟨hall, init2, ds, hres⟩ | ⟨before, d, after, e, init2, hsplit, hbefore, hd, hres⟩
      · have hnoerr : ∀ result err, Configure shared format conf ≠ some (result, some err) := by
          intro result err
          simp only [Configure, hv, hl, hres]
          cases (NewTransitionParser shared).AddDirectives shared ds <;> simp
        refine ⟨?_, ?_, ?_⟩
        · constructor
          · rintro ⟨result, err, h⟩
            exact absurd h (hnoerr result err)
          · rintro ⟨-, y, hy, e, he⟩
            obtain ⟨dir, hdir⟩ := hall y hy
            rw [hdir] at he
            cases he
        · intro result err herr
          exact absurd herr (hnoerr result err)
        · intro h
          simp at h
      · have hret : Configure shared format conf =
            some ({ format with
                parser := NewTransitionParser shared
                state := jsonReadObject
                initState := init2
                timeRead := conf.GetString "JSONTimestampRead" "20060102150405"
                timeWrite := conf.GetString "JSONTimestampWrite" "2006-01-02 15:04:05 MST" },
              some (e ++ ": " ++ d)) := by
          simp [Configure, hv, hl, hres]
        refine ⟨?_, ?_, ?_⟩
        · exact ⟨fun _ => ⟨rfl, d, by simp [hsplit], e, hd⟩, fun _ => ⟨_, _, hret⟩⟩
        · intro result err herr
          rw [hret] at herr
          simp only [Option.some.injEq, Prod.mk.injEq] at herr
          obtain ⟨hr, he⟩ := herr
          subst hr
          exact ⟨before, d, after, e, hsplit, hbefore, hd, he.symm, rfl⟩
        · intro h
          simp at h

/-- C10 on a list whose second string has three of the five fields: `Configure`
returns an error. -/
theorem Configure_error_witness :
    ∃ result err, Configure demoShared fresh demoConf = some (result, some err) :=
  (Configure_error demoShared fresh demoConf).1.mpr
    ⟨by decide, "s:a:s", by decide, "parse error", by simp [demoShared]⟩

/-- The error text and the parser for that list: the text names the string
`s:a:s`, and the directive parsed before it has not been added. -/
theorem Configure_error_example :
    (Configure demoShared fresh demoConf).map (fun r => r.2) =
        some (some "parse error: s:a:s") ∧
      (Configure demoShared fresh demoConf).map (fun r => r.1.parser.directives) =
        some [] := by
  decide

/-! ## The buffer only grows -/

theorem Extends.refl (f : JSON) : Extends f f := ⟨rfl, [], by simp⟩

theorem Extends.trans {f g h : JSON} (a : Extends f g) (b : Extends g h) : Extends f h := by
  obtain ⟨pa, x, hx⟩ := a
  obtain ⟨pb, y, hy⟩ := b
  exact ⟨pb.trans pa, x ++ y, by rw [hy, hx, List.append_assoc]⟩

theorem Extends.write (f : JSON) (bs : List Byte) : Extends f (f.Write bs) :=
  ⟨rfl, bs, rfl⟩

theorem readEnd_extends (f : JSON) (d : List Byte) (s : ParserStateID) :
    Extends f (readEnd f d s) := by
  rcases hs : f.stack with _ | ⟨a, t⟩
  · rw [readEnd_nil f d s hs]; exact ⟨rfl, [], by simp⟩
  · have hne : f.stack ≠ [] := by simp [hs]
    rw [readEnd_snoc f d s f.stack.dropLast (f.stack.getLast hne)
      (List.dropLast_append_getLast hne).symm]
    exact ⟨rfl, _, rfl⟩

theorem writeKeyLoop_extends (fuel : Nat) : ∀ f : JSON, Extends f (writeKeyLoop fuel f) := by
  induction fuel with
  | zero => intro f; exact Extends.refl f
  | succ n ih =>
    intro f
    unfold writeKeyLoop
    split
    · exact (readEnd_extends f [] 0).trans (ih _)
    · exact Extends.refl f

theorem closeLoop_extends (fuel : Nat) : ∀ f : JSON, Extends f (closeLoop fuel f) := by
  induction fuel with
  | zero => intro f; exact Extends.refl f
  | succ n ih =>
    intro f
    unfold closeLoop
    split
    · exact (readEnd_extends f [] 0).trans (ih _)
    · exact Extends.refl f

theorem writeKey_extends (f : JSON) (key : List Byte) : Extends f (writeKey f key) := by
  obtain ⟨hp, x, hx⟩ := writeKeyLoop_extends (f.stack.length + 1) f
  unfold writeKey
  dsimp only
  generalize writeKeyLoop (f.stack.length + 1) f = c at hp hx ⊢
  rcases c with ⟨msg, prs, st, stk, i, tr, tw⟩
  simp only at hp hx
  subst hp hx
  refine ⟨?_, x ++ (if st.toNat > jsonReadKey.toNat then [110, 117, 108, 108] else []) ++
    (if st = jsonReadObject then [] else [44]) ++ [34] ++ HTMLEscape key ++ [34, 58], ?_⟩
  · cases st <;> simp [JSON.Write, jsonReaderState.toNat]
  · cases st <;> simp [JSON.Write, jsonReaderState.toNat]

theorem readValue_extends (f : JSON) (d : List Byte) (s : ParserStateID) :
    Extends f (readValue f d s) := by
  obtain ⟨hp, x, hx⟩ := writeKey_extends f (f.parser.GetStateName s)
  unfold readValue
  split
  · exact ⟨rfl, TrimSpace d, rfl⟩
  · exact ⟨rfl, TrimSpace d, rfl⟩
  · exact ⟨rfl, [44] ++ TrimSpace d, by simp [JSON.Write]⟩
  · exact ⟨hp, x ++ TrimSpace d, by simp [JSON.Write, hx]⟩

theorem readEscaped_extends (f : JSON) (d : List Byte) (s : ParserStateID) :
    Extends f (readEscaped f d s) := by
  obtain ⟨hp, x, hx⟩ := writeKey_extends f (f.parser.GetStateName s)
  unfold readEscaped
  dsimp only
  split
  · exact ⟨rfl, [34] ++ HTMLEscape (TrimSpace d) ++ [34], by simp [JSON.Write]⟩
  · exact ⟨rfl, [34] ++ HTMLEscape (TrimSpace d) ++ [34], by simp [JSON.Write]⟩
  · exact ⟨rfl, [44, 34] ++ HTMLEscape (TrimSpace d) ++ [34], by simp [JSON.Write]⟩
  · exact ⟨hp, x ++ [34] ++ HTMLEscape (TrimSpace d) ++ [34], by simp [JSON.Write, hx]⟩

theorem invoke_extends (f : JSON) (c : Invocation) : Extends f (invoke f c) := by
  unfold invoke
  split
  · exact writeKey_extends f _
  · exact readValue_extends f _ _
  · exact readEscaped_extends f _ _
  · unfold readArray
    dsimp only
    split
    · exact ⟨rfl, [44, 91], rfl⟩
    · exact ⟨rfl, [91], rfl⟩
  · unfold readObject
    dsimp only
    split
    · exact ⟨rfl, [44, 123], rfl⟩
    · exact ⟨rfl, [123], rfl⟩
  · exact readEnd_extends f _ _
  · exact Extends.trans (g := { readValue f c.data c.state with state := f.state })
      (readValue_extends f c.data c.state) (readEnd_extends _ c.data c.state)
  · exact Extends.trans (g := { readEscaped f c.data c.state with state := f.state })
      (readEscaped_extends f c.data c.state) (readEnd_extends _ c.data c.state)

theorem invokeAll_extends (calls : List Invocation) :
    ∀ f : JSON, Extends f (invokeAll f calls) := by
  induction calls with
  | nil => intro f; exact Extends.refl f
  | cons c cs ih =>
    intro f
    exact (invoke_extends f c).trans (ih _)

/-- The buffer `PrepareMessage` assembles starts with the opening brace. -/
theorem assembleMessage_starts (format : JSON) (calls : List Invocation)
    (remains : Option (List Byte)) (state : ParserStateID) :
    ∃ body, (assembleMessage format calls remains state).message = 123 :: body := by
  have h : Extends { format with message := [123], state := jsonReadObject }
      (assembleMessage format calls remains state) := by
    unfold assembleMessage
    have h1 := invokeAll_extends calls { format with message := [123], state := jsonReadObject }
    cases remains with
    | none =>
      simp only
      split
      · exact h1.trans (closeLoop_extends _ _)
      · exact h1
    | some r =>
      simp only
      split
      · exact (h1.trans (readEscaped_extends _ r state)).trans (closeLoop_extends _ _)
      · exact h1.trans (readEscaped_extends _ r state)
  obtain ⟨-, x, hx⟩ := h
  exact ⟨x, by simpa using hx⟩

/-! ## `TrimSpace` on a finished document -/

theorem spaceWidth_brace (t : List Byte) : spaceWidth (123 :: t) = 0 := by
  rcases t with _ | ⟨c, _ | ⟨d, t⟩⟩ <;> simp [spaceWidth]

theorem spaceWidthRev_lf (t : List Byte) : spaceWidthRev (10 :: t) = 1 := by
  rcases t with _ | ⟨c, _ | ⟨d, t⟩⟩ <;> simp [spaceWidthRev]

theorem spaceWidthRev_brace (t : List Byte) : spaceWidthRev (125 :: t) = 0 := by
  rcases t with _ | ⟨c, _ | ⟨d, t⟩⟩ <;> simp [spaceWidthRev]

/-- A buffer that starts with the opening brace and ends with the closing brace
and a line feed loses exactly the line feed. -/
theorem TrimSpace_document (t : List Byte) :
    TrimSpace (123 :: (t ++ [125, 10])) = 123 :: (t ++ [125]) := by
  have hl : trimLeftLoop (123 :: (t ++ [125, 10])).length (123 :: (t ++ [125, 10])) =
      123 :: (t ++ [125, 10]) := by
    simp [trimLeftLoop, spaceWidth_brace]
  have hr : (123 :: (t ++ [125, 10])).reverse = 10 :: 125 :: (t.reverse ++ [123]) := by
    simp
  unfold TrimSpace
  simp only [hl, hr]
  have hlen : (123 :: (t ++ [125, 10])).length = (t.length + 1) + 1 + 1 := by simp
  rw [hlen]
  simp [trimRightLoop, spaceWidthRev_lf, spaceWidthRev_brace]

/-! ## Flat sequences of calls -/

theorem joinMembers_true (xs : List (List Byte)) : joinMembers true xs = commaTail xs := by
  cases xs with
  | nil => simp [joinMembers, commaTail]
  | cons x xs => simp [joinMembers, commaTail]

theorem joinMembers_false (xs : List (List Byte)) :
    joinMembers false xs = List.intercalate [44] xs := by
  cases xs with
  | nil => simp [joinMembers, List.intercalate]
  | cons x xs => simp [joinMembers, intercalate_cons]

/-- A key waits at the end exactly when the last call is a `key` call, or when
there is no call and a key was waiting before. -/
theorem keyPending_eq (calls : List Invocation) :
    ∀ p : Option (List Byte),
      keyPending p calls =
        match calls.getLast? with
        | some c => decide (c.fn = .key)
        | none => p.isSome := by
  induction calls with
  | nil => intro p; simp [keyPending]
  | cons c rest ih =>
    intro p
    cases rest with
    | nil =>
      by_cases h : c.fn = .key <;> simp [keyPending, h]
    | cons d rest2 =>
      have h := ih (if c.fn = .key then some c.data else none)
      rw [keyPending, h, List.getLast?_cons_cons]
      cases hl : (d :: rest2).getLast? with
      | some x => rfl
      | none => simp at hl

theorem reached_key_none (f : JSON) (base : List Byte) (sep : Bool) (d : List Byte)
    (s : ParserStateID) (h : Reached f base sep none) :
    Reached (readKey f d s) base sep (some d) := by
  rcases f with ⟨msg, prs, st, stk, i, tr, tw⟩
  obtain ⟨hm, hs⟩ := h
  simp only at hm hs
  subst hm hs
  cases sep <;>
    simp [Reached, readKey, writeKey, writeKeyLoop, JSON.Write, jsonReaderState.toNat, keyBytes]

theorem reached_key_some (f : JSON) (base : List Byte) (sep : Bool) (k d : List Byte)
    (s : ParserStateID) (h : Reached f base sep (some k)) :
    Reached (readKey f d s)
      (base ++ (if sep then [44] else []) ++ Member.bytes ⟨k, [110, 117, 108, 108]⟩) true
      (some d) := by
  rcases f with ⟨msg, prs, st, stk, i, tr, tw⟩
  obtain ⟨hm, hs⟩ := h
  simp only at hm hs
  subst hm hs
  cases sep <;>
    simp [Reached, readKey, writeKey, writeKeyLoop, JSON.Write, jsonReaderState.toNat, keyBytes,
      Member.bytes]

theorem reached_value_none (f : JSON) (base : List Byte) (sep : Bool) (c : Invocation)
    (hc : c.fn = .val ∨ c.fn = .esc) (h : Reached f base sep none) :
    Reached (invoke f c)
      (base ++ (if sep then [44] else []) ++
        Member.bytes ⟨f.parser.GetStateName c.state, valueBytes c⟩) true none := by
  rcases f with ⟨msg, prs, st, stk, i, tr, tw⟩
  rcases c with ⟨fn, d, s⟩
  obtain ⟨hm, hs⟩ := h
  simp only at hm hs hc
  subst hm hs
  rcases hc with rfl | rfl <;> cases sep <;>
    simp [Reached, invoke, readValue, readEscaped, writeKey, writeKeyLoop, JSON.Write,
      jsonReaderState.toNat, keyBytes, Member.bytes, valueBytes]

theorem reached_value_some (f : JSON) (base : List Byte) (sep : Bool) (k : List Byte)
    (c : Invocation) (hc : c.fn = .val ∨ c.fn = .esc) (h : Reached f base sep (some k)) :
    Reached (invoke f c)
      (base ++ (if sep then [44] else []) ++ Member.bytes ⟨k, valueBytes c⟩) true none := by
  rcases f with ⟨msg, prs, st, stk, i, tr, tw⟩
  rcases c with ⟨fn, d, s⟩
  obtain ⟨hm, hs⟩ := h
  simp only at hm hs hc
  subst hm hs
  rcases hc with rfl | rfl <;> cases sep <;>
    simp [Reached, invoke, readValue, readEscaped, JSON.Write, keyBytes, Member.bytes,
      valueBytes]

/-- A run of `key`, `val` and `esc` calls after which no key waits for its value
writes the members it describes, separated by commas, and ends in state
`jsonReadKey` unless it is empty. -/
theorem flat_run (names : ParserStateID → List Byte) (calls : List Invocation) :
    ∀ (f : JSON) (base : List Byte) (sep : Bool) (pending : Option (List Byte)),
      f.parser.GetStateName = names →
      (∀ c ∈ calls, c.fn = .key ∨ c.fn = .val ∨ c.fn = .esc) →
      keyPending pending calls = false →
      Reached f base sep pending →
      (invokeAll f calls).message =
          base ++ joinMembers sep ((membersOf names pending calls).map Member.bytes) ∧
        (invokeAll f calls).state = (if calls = [] then f.state else jsonReadKey) := by
  induction calls with
  | nil =>
    intro f base sep pending _ _ hp hr
    cases pending with
    | some k => simp [keyPending] at hp
    | none =>
      obtain ⟨hm, -⟩ := hr
      simp [invokeAll, membersOf, joinMembers, hm]
  | cons c rest ih =>
    intro f base sep pending hn hflat hp hr
    have hrest : ∀ x ∈ rest, x.fn = .key ∨ x.fn = .val ∨ x.fn = .esc :=
      fun x hx => hflat x (List.mem_cons_of_mem c hx)
    have hpar : (invoke f c).parser.GetStateName = names := by
      rw [(invoke_extends f c).1, hn]
    rw [keyPending] at hp
    rcases hflat c (List.mem_cons_self c rest) with hk | hv
    · -- a key call
      have hinv : invoke f c = readKey f c.data c.state := by simp [invoke, hk]
      simp only [hk, if_true] at hp
      have hne : rest ≠ [] := by
        rintro rfl
        simp [keyPending] at hp
      cases pending with
      | none =>
        have hr2 := reached_key_none f base sep c.data c.state hr
        rw [← hinv] at hr2
        obtain ⟨h1, h2⟩ := ih (invoke f c) base sep (some c.data) hpar hrest hp hr2
        refine ⟨?_, ?_⟩
        · simp only [invokeAll, List.foldl_cons] at h1 ⊢
          rw [h1]
          simp [membersOf, hk]
        · simp only [invokeAll, List.foldl_cons] at h2 ⊢
          rw [h2]
          simp [hne]
      | some k =>
        have hr2 := reached_key_some f base sep k c.data c.state hr
        rw [← hinv] at hr2
        obtain ⟨h1, h2⟩ := ih (invoke f c) _ true (some c.data) hpar hrest hp hr2
        refine ⟨?_, ?_⟩
        · simp only [invokeAll, List.foldl_cons] at h1 ⊢
          rw [h1, joinMembers_true]
          simp [membersOf, hk, joinMembers]
        · simp only [invokeAll, List.foldl_cons] at h2 ⊢
          rw [h2]
          simp [hne]
    · -- a value call
      have hnk : c.fn ≠ .key := by
        rcases hv with h | h <;> simp [h]
      simp only [hnk, if_false] at hp
      have hlast : ∀ g : JSON, ∀ b, Reached g b true none →
          (if rest = [] then g.state else jsonReadKey) = jsonReadKey := by
        intro g b hg
        obtain ⟨-, hs⟩ := hg
        by_cases h0 : rest = []
        · simp [h0, hs]
        · simp [h0]
      cases pending with
      | none =>
        have hr2 := reached_value_none f base sep c hv hr
        obtain ⟨h1, h2⟩ := ih (invoke f c) _ true none hpar hrest hp hr2
        refine ⟨?_, ?_⟩
        · simp only [invokeAll, List.foldl_cons] at h1 ⊢
          rw [h1, hn, joinMembers_true]
          rcases hv with h | h <;> simp [membersOf, h, joinMembers]
        · simp only [invokeAll, List.foldl_cons] at h2 ⊢
          rw [h2, hlast _ _ hr2]
          simp
      | some k =>
        have hr2 := reached_value_some f base sep k c hv hr
        obtain ⟨h1, h2⟩ := ih (invoke f c) _ true none hpar hrest hp hr2
        refine ⟨?_, ?_⟩
        · simp only [invokeAll, List.foldl_cons] at h1 ⊢
          rw [h1, joinMembers_true]
          rcases hv with h | h <;> simp [membersOf, h, joinMembers]
        · simp only [invokeAll, List.foldl_cons] at h2 ⊢
          rw [h2, hlast _ _ hr2]
          simp

/-- The closing loop of `PrepareMessage` does nothing in the states
`jsonReadKey` and `jsonReadValue`, whatever the nesting stack holds. -/
theorem closeLoop_idle (fuel : Nat) (format : JSON)
    (h : format.state = jsonReadKey ∨ format.state = jsonReadValue) :
    closeLoop fuel format = format := by
  cases fuel with
  | zero => simp [closeLoop]
  | succ n => rcases h with h | h <;> simp [closeLoop, h]

/-- The bytes that remain are written by a last `readEscaped` call. -/
theorem assembleMessage_eq (format : JSON) (calls : List Invocation)
    (remains : Option (List Byte)) (state : ParserStateID) :
    assembleMessage format calls remains state =
      if (invokeAll { format with message := [123], state := jsonReadObject }
            (allCalls calls remains state)).message.length > 1 then
        closeLoop
          ((invokeAll { format with message := [123], state := jsonReadObject }
            (allCalls calls remains state)).stack.length + 1)
          (invokeAll { format with message := [123], state := jsonReadObject }
            (allCalls calls remains state))
      else
        invokeAll { format with message := [123], state := jsonReadObject }
          (allCalls calls remains state) := by
  cases remains with
  | none => simp [assembleMessage, allCalls]
  | some r => simp [assembleMessage, allCalls, invokeAll, List.foldl_append, invoke]

/-- The finished buffer is the assembled buffer and the closing brace: the line
feed written after the brace is removed again by `TrimSpace`, and nothing else
is. -/
theorem PrepareMessage_message (format : JSON) (calls : List Invocation)
    (remains : Option (List Byte)) (state : ParserStateID) :
    (PrepareMessage format calls remains state).message =
      (assembleMessage format calls remains state).message ++ [125] := by
  obtain ⟨body, hb⟩ := assembleMessage_starts format calls remains state
  simp only [PrepareMessage, JSON.Write, hb]
  have h := TrimSpace_document body
  simpa using h

/-! ## Flat messages -/

/-- The bytes of a flat message.  When the parser invokes only `key`, `val` and
`esc` and the last call that writes (the `readEscaped` call for the remaining
bytes, if there are any) is not a `key` call, the finished output is the
opening brace, the members the calls describe separated by single commas, and
the closing brace. -/
theorem flat_document (format : JSON) (calls : List Invocation) (remains : Option (List Byte))
    (state : ParserStateID)
    (hflat : ∀ c ∈ calls, c.fn = .key ∨ c.fn = .val ∨ c.fn = .esc)
    (hend : ∀ c, (allCalls calls remains state).getLast? = some c → c.fn ≠ .key) :
    (PrepareMessage format calls remains state).message =
      [123] ++
        List.intercalate [44]
          ((membersOf format.parser.GetStateName none (allCalls calls remains state)).map
            Member.bytes) ++
        [125] := by
  have hall : ∀ c ∈ allCalls calls remains state, c.fn = .key ∨ c.fn = .val ∨ c.fn = .esc := by
    intro c hc
    cases remains with
    | none => exact hflat c hc
    | some r =>
      simp only [allCalls, List.mem_append, List.mem_singleton] at hc
      rcases hc with hc | rfl
      · exact hflat c hc
      · exact Or.inr (Or.inr rfl)
  have hpend : keyPending none (allCalls calls remains state) = false := by
    rw [keyPending_eq]
    cases hl : (allCalls calls remains state).getLast? with
    | none => rfl
    | some c => simpa using hend c hl
  obtain ⟨hm, hs⟩ := flat_run format.parser.GetStateName (allCalls calls remains state)
    { format with message := [123], state := jsonReadObject } [123] false none rfl hall hpend
    ⟨rfl, rfl⟩
  have hasm : (assembleMessage format calls remains state).message =
      [123] ++ joinMembers false
        ((membersOf format.parser.GetStateName none (allCalls calls remains state)).map
          Member.bytes) := by
    rw [assembleMessage_eq]
    by_cases h0 : allCalls calls remains state = []
    · have hlen : ¬ (invokeAll { format with message := [123], state := jsonReadObject }
          (allCalls calls remains state)).message.length > 1 := by
        rw [hm, h0]
        simp [membersOf, joinMembers]
      rw [if_neg hlen, hm]
    · have hst : (invokeAll { format with message := [123], state := jsonReadObject }
          (allCalls calls remains state)).state = jsonReadKey := by
        rw [hs, if_neg h0]
      rw [closeLoop_idle _ _ (Or.inl hst)]
      simp only [ite_self]
      rw [hm]
  rw [PrepareMessage_message, hasm, joinMembers_false]

/-- The flat message `key a`, `key b`, `val 1`, `val 2` with parser state 0
(named `s`) and no bytes remaining: the output is `{"a":null,"b":1,"s":2}`. -/
theorem flat_document_witness :
    (PrepareMessage fresh
        [{ fn := .key, data := [97], state := 0 }, { fn := .key, data := [98], state := 0 },
          { fn := .val, data := [49], state := 0 }, { fn := .val, data := [50], state := 0 }]
        none 0).message =
      [123, 34, 97, 34, 58, 110, 117, 108, 108, 44, 34, 98, 34, 58, 49, 44, 34, 115, 34, 58,
        50, 125] := by
  rw [flat_document fresh _ none 0 (by decide) (by decide)]
  decide

/-! ## C2: containers left open -/

/-- C2 at the calls `key a`, `obj`, `key b`, `val 1`: the closing loop does not
run in state `jsonReadKey`, the finished output is `{"a":{"b":1}` with the
inner object never closed, and the nesting stack still holds one entry. -/
theorem open_container_survives :
    (PrepareMessage fresh
        [{ fn := .key, data := [97], state := 0 }, { fn := .obj, data := [], state := 0 },
          { fn := .key, data := [98], state := 0 }, { fn := .val, data := [49], state := 0 }]
        none 0).message =
        [123, 34, 97, 34, 58, 123, 34, 98, 34, 58, 49, 125] ∧
      (PrepareMessage fresh
        [{ fn := .key, data := [97], state := 0 }, { fn := .obj, data := [], state := 0 },
          { fn := .key, data := [98], state := 0 }, { fn := .val, data := [49], state := 0 }]
        none 0).stack = [jsonReadValue] := by
  decide

/-! ## C3: the end of the finished buffer -/

/-- C3, refuted as stated.  For the calls `key a`, `val 1` the finished buffer
is `{"a":1}`: its last byte is the closing brace, not a line feed. -/
theorem newline_counterexample :
    (PrepareMessage fresh
        [{ fn := .key, data := [97], state := 0 }, { fn := .val, data := [49], state := 0 }]
        none 0).message = [123, 34, 97, 34, 58, 49, 125] ∧
      (PrepareMessage fresh
        [{ fn := .key, data := [97], state := 0 }, { fn := .val, data := [49], state := 0 }]
        none 0).message.getLast? ≠ some 10 := by
  decide

/-- C3, amended.  For every message the finished buffer is the assembled bytes
followed by the closing brace: `TrimSpace` removes the line feed written after
the brace and no other byte, so the buffer starts with the opening brace and
its last byte is the closing brace. -/
theorem PrepareMessage_ends_with_brace (format : JSON) (calls : List Invocation)
    (remains : Option (List Byte)) (state : ParserStateID) :
    (PrepareMessage format calls remains state).message =
        (assembleMessage format calls remains state).message ++ [125] ∧
      (PrepareMessage format calls remains state).message.head? = some 123 ∧
      (PrepareMessage format calls remains state).message.getLast? = some 125 := by
  obtain ⟨body, hb⟩ := assembleMessage_starts format calls remains state
  rw [PrepareMessage_message, hb]
  refine ⟨rfl, rfl, ?_⟩
  rw [List.getLast?_eq_getLast _ (by simp)]
  simp

/-! ## C4: the nesting stack across messages -/

/-- C4 at two messages on one formatter.  The first message (`key a`, `obj`,
`key b`, `val 1`) leaves one entry on the nesting stack, which `PrepareMessage`
does not reset; for the second message (a single `end`) the formatter then
prints `{}}`, where a formatter that has formatted nothing before prints
`{}`. -/
theorem stale_stack_changes_output :
    (PrepareMessage
        (PrepareMessage fresh
          [{ fn := .key, data := [97], state := 0 }, { fn := .obj, data := [], state := 0 },
            { fn := .key, data := [98], state := 0 }, { fn := .val, data := [49], state := 0 }]
          none 0)
        [{ fn := .end_, data := [], state := 0 }] none 0).message = [123, 125, 125] ∧
      (PrepareMessage fresh [{ fn := .end_, data := [], state := 0 }] none 0).message =
        [123, 125] := by
  decide

/-! ## C6: `null` before a key -/

/-- C6 at the calls `key a`, `arr`, `val 1`, `end`, `key b` on a buffer that
holds the opening brace: after the array has been closed the state is
`jsonReadValue`, so `readKey` writes `null` although the key `a` has its value;
the buffer is `{"a":[1]null,"b":`.  The same happens when the array is closed by
`readKey` itself. -/
theorem null_after_closed_array :
    (invokeAll { fresh with message := [123] }
        [{ fn := .key, data := [97], state := 0 }, { fn := .arr, data := [], state := 0 },
          { fn := .val, data := [49], state := 0 }, { fn := .end_, data := [], state := 0 },
          { fn := .key, data := [98], state := 0 }]).message =
        [123, 34, 97, 34, 58, 91, 49, 93, 110, 117, 108, 108, 44, 34, 98, 34, 58] ∧
      (invokeAll { fresh with message := [123] }
        [{ fn := .key, data := [97], state := 0 }, { fn := .arr, data := [], state := 0 },
          { fn := .val, data := [49], state := 0 },
          { fn := .key, data := [98], state := 0 }]).message =
        [123, 34, 97, 34, 58, 91, 49, 93, 110, 117, 108, 108, 44, 34, 98, 34, 58] := by
  decide

/-! ## C14: the combined callbacks -/

/-- The byte `readEnd` writes depends on the state only through whether it is
an array state, and neither the new state nor the new stack depends on it. -/
theorem readEnd_state_irrelevant (f : JSON) (st st2 : jsonReaderState) (d : List Byte)
    (s : ParserStateID) (h : closingByte st = closingByte st2) :
    readEnd { f with state := st } d s = readEnd { f with state := st2 } d s := by
  rcases List.eq_nil_or_concat f.stack with h0 | ⟨rest, top, hs⟩
  · rw [readEnd_nil { f with state := st } d s h0, readEnd_nil { f with state := st2 } d s h0]
  · have hs2 : f.stack = rest ++ [top] := by simpa using hs
    rw [readEnd_snoc { f with state := st } d s rest top hs2,
      readEnd_snoc { f with state := st2 } d s rest top hs2]
    simp [h]

/-- C14. `readValueEnd` gives the same formatter (buffer, state, stack and all
other fields) as `readValue` followed by `readEnd`, and `readEscapedEnd` the
same as `readEscaped` followed by `readEnd`: the state that the combined
callbacks put back before `readEnd` is an array state exactly when the state
left by the value is one, and `readEnd` looks at nothing else of it. -/
theorem combined_is_sequential (format : JSON) (data : List Byte) (state : ParserStateID) :
    readValueEnd format data state = readEnd (readValue format data state) data state ∧
      readEscapedEnd format data state =
        readEnd (readEscaped format data state) data state := by
  have hv : closingByte format.state = closingByte (readValue format data state).state := by
    rcases format with ⟨msg, prs, st, stk, i, tr, tw⟩
    cases st <;> simp [readValue, closingByte, JSON.Write]
  have he : closingByte format.state = closingByte (readEscaped format data state).state := by
    rcases format with ⟨msg, prs, st, stk, i, tr, tw⟩
    cases st <;> simp [readEscaped, closingByte, JSON.Write]
  exact ⟨readEnd_state_irrelevant (readValue format data state) _ _ data state hv,
    readEnd_state_irrelevant (readEscaped format data state) _ _ data state he⟩

/-! ## C12: `Read` -/

/-- The built-in `copy` copies `min (len dst) (len src)` elements: that many
leading elements of `dst` become those of `src`, the others stay. -/
theorem copy_spec (dst : List Byte) :
    ∀ src : List Byte,
      (copy dst src).2 = min dst.length src.length ∧
        (copy dst src).1.take (copy dst src).2 = src.take (copy dst src).2 ∧
        (copy dst src).1.drop (copy dst src).2 = dst.drop (copy dst src).2 ∧
        (copy dst src).1.length = dst.length := by
  induction dst with
  | nil => intro src; simp [copy]
  | cons d ds ih =>
    intro src
    cases src with
    | nil => simp [copy]
    | cons s ss =>
      obtain ⟨h1, h2, h3, h4⟩ := ih ss
      refine ⟨?_, ?_, ?_, ?_⟩
      · simp only [copy, List.length_cons, h1]
        omega
      · simp only [copy, List.take_succ_cons, h2]
      · simp only [copy, List.drop_succ_cons, h3]
      · simp only [copy, List.length_cons, h4]

/-- C12. `Read(dest)` returns `n = min (len dest) (Len())` and a `nil` error;
afterwards the first `n` bytes of `dest` are the first `n` bytes of the buffer,
the other bytes of `dest` (and its length) are as before, and the formatter is
unchanged, so `Len()` and `String()` give what they gave before. -/
theorem Read_contract (format : JSON) (dest : List Byte) :
    (format.Read dest).n = min dest.length format.Len ∧
      (format.Read dest).err = none ∧
      (format.Read dest).dest.take (format.Read dest).n =
        format.message.take (format.Read dest).n ∧
      (format.Read dest).dest.drop (format.Read dest).n = dest.drop (format.Read dest).n ∧
      (format.Read dest).dest.length = dest.length ∧
      (format.Read dest).format.Len = format.Len ∧
      (format.Read dest).format.String = format.String := by
  obtain ⟨h1, h2, h3, h4⟩ := copy_spec dest format.message
  exact ⟨h1, rfl, h2, h3, h4, rfl, rfl⟩

/-- A destination of five bytes and a buffer of two: two bytes are copied and
the last three stay. -/
theorem Read_short_buffer_example :
    ({ fresh with message := [123, 125] }.Read [1, 2, 3, 4, 5]).dest = [123, 125, 3, 4, 5] ∧
      ({ fresh with message := [123, 125] }.Read [1, 2, 3, 4, 5]).n = 2 ∧
      ({ fresh with message := [123, 125] }.Read [9]).dest = [123] ∧
      ({ fresh with message := [123, 125] }.Read [9]).n = 1 := by
  decide

/-! ## C11: the start state -/

/-- When every string parses, the loop of `Configure` returns the directives in
order and the start state `startStateAfter` describes. -/
theorem parseDirectives_ok (shared : Shared) (strings : List String) :
    ∀ (dirs : List TransitionDirective) (initState : String)
      (directives : List TransitionDirective),
      strings.map (fun d => shared.ParseTransitionDirective d parserFunctions) =
          dirs.map Except.ok →
        parseDirectives shared strings initState directives =
          (startStateAfter initState dirs, .ok (directives ++ dirs)) := by
  induction strings with
  | nil =>
    intro dirs initState directives h
    cases dirs with
    | nil => simp [parseDirectives, startStateAfter]
    | cons d ds => simp at h
  | cons x rest ih =>
    intro dirs initState directives h
    cases dirs with
    | nil => simp at h
    | cons d ds =>
      simp only [List.map_cons, List.cons.injEq] at h
      obtain ⟨hx, hrest⟩ := h
      have := ih ds (if initState = "" then d.State else initState) (directives ++ [d]) hrest
      simp [parseDirectives, hx, this, startStateAfter]

/-- A start state that is not the empty string is never replaced. -/
theorem startStateAfter_set (initState : String) (dirs : List TransitionDirective)
    (h : initState ≠ "") : startStateAfter initState dirs = initState := by
  induction dirs with
  | nil => rfl
  | cons d ds ih =>
    simp only [startStateAfter, List.foldl_cons, if_neg h] at ih ⊢
    exact ih

/-- An empty start state becomes the first `State` that is not the empty
string, and stays empty when there is none. -/
theorem startStateAfter_empty (dirs : List TransitionDirective) :
    startStateAfter "" dirs =
      ((dirs.map fun d => d.State).find? fun s => decide (s ≠ "")).getD "" := by
  induction dirs with
  | nil => rfl
  | cons d ds ih =>
    by_cases hd : d.State = ""
    · simp only [startStateAfter, List.foldl_cons, if_true, hd] at ih ⊢
      simpa [hd] using ih
    · have := startStateAfter_set d.State ds hd
      simp only [startStateAfter, List.foldl_cons, if_true] at this ⊢
      simp [this, hd]

/-- C11. For a non-empty list of directives that all parse, `Configure` returns
exactly when `AddDirectives` does, and when it returns: it returns no error and
has handed the directives to the parser; if no start state is configured
(`JSONStartState` is the empty string) the start state is the `State` of the
first directive; a configured start state is left unchanged.  `AddDirectives`
belongs to the absent package `shared`; the one thing taken of it (`hadd`) is
that it does not return for a directive whose `State` is the empty string: the
parser gives the empty name the id of no state and indexes its table of states
with it. -/
theorem Configure_start_state (shared : Shared) (format : JSON) (conf : PluginConfig)
    (dirs : List TransitionDirective)
    (hadd : ∀ p ds, shared.addDirectivesReturns p ds = true → ∀ d ∈ ds, d.State ≠ "")
    (hv : conf.HasValue "JSONDirectives" = true)
    (hne : dirs ≠ [])
    (hparse : (conf.GetStringArray "JSONDirectives" []).map
        (fun d => shared.ParseTransitionDirective d parserFunctions) = dirs.map Except.ok) :
    (Configure shared format conf).isSome =
        shared.addDirectivesReturns (NewTransitionParser shared) dirs ∧
      ∀ (result : JSON) (err : Option String),
        Configure shared format conf = some (result, err) →
          err = none ∧
            result.parser.directives = dirs ∧
            (conf.GetString "JSONStartState" "" = "" →
              result.initState = (dirs.head hne).State) ∧
            (conf.GetString "JSONStartState" "" ≠ "" →
              result.initState = conf.GetString "JSONStartState" "") := by
  obtain ⟨d, rest, rfl⟩ : ∃ d rest, dirs = d :: rest := by
    cases dirs with
    | nil => exact absurd rfl hne
    | cons d rest => exact ⟨d, rest, rfl⟩
  cases hl : conf.GetStringArray "JSONDirectives" [] with
  | nil =>
    rw [hl] at hparse
    simp at hparse
  | cons x xs =>
    have hres := parseDirectives_ok shared (x :: xs) (d :: rest)
      (conf.GetString "JSONStartState" "") [] (by rw [← hl]; exact hparse)
    refine ⟨?_, ?_⟩
    · simp only [Configure, hv, hl, hres, TransitionParser.AddDirectives, NewTransitionParser,
        Bool.not_true, Bool.false_eq_true, if_false, List.length_cons, Nat.add_one_ne_zero,
        List.nil_append]
      by_cases hr : shared.addDirectivesReturns
          { directives := [], GetStateName := shared.stateNames [] } (d :: rest) = true
      · simp [hr]
      · simp [hr]
    · intro result err hret
      simp only [Configure, hv, hl, hres, TransitionParser.AddDirectives, NewTransitionParser,
        Bool.not_true, Bool.false_eq_true, if_false, List.length_cons, Nat.add_one_ne_zero,
        List.nil_append] at hret
      by_cases hr : shared.addDirectivesReturns
          { directives := [], GetStateName := shared.stateNames [] } (d :: rest) = true
      · have hd : d.State ≠ "" := hadd _ _ hr d (List.mem_cons_self d rest)
        simp only [hr, if_true, Option.some.injEq, Prod.mk.injEq] at hret
        obtain ⟨hres2, herr⟩ := hret
        subst hres2
        refine ⟨herr.symm, rfl, ?_, ?_⟩
        · intro hs
          simp only [List.head_cons, hs, startStateAfter_empty]
          simp [hd]
        · intro hs
          simp only [startStateAfter_set _ _ hs]
      · simp [hr] at hret

/-- C11 on the directives `t:b:t::val` and `s:a:s::key` without a configured
start state: `Configure` returns, and the start state is `t`, the `State` of the
first directive. -/
theorem Configure_start_state_witness :
    ∃ result, Configure stateShared fresh stateConf = some (result, none) ∧
      result.initState = "t" :=
  ⟨_, rfl,
    ((Configure_start_state stateShared fresh stateConf
      [{ State := "t", Token := "b", NextState := "t", Flags := [], Callback := "val" },
        { State := "s", Token := "a", NextState := "s", Flags := [], Callback := "key" }]
      (by
        intro p ds h d hd
        have := List.all_eq_true.mp h d hd
        simpa using this)
      (by decide) (by simp) (by simp [stateConf, stateShared])).2 _ none rfl).2.2.1
      (by decide)⟩

/-- The directives `:a:s::key` and `s:a:s::key` both parse, but the first has
the empty string as its `State`: with a parser that has no state of that name,
`Configure` does not return. -/
theorem Configure_empty_state_example :
    (Configure stateShared fresh emptyStateConf).isNone = true := by
  decide

/-! ## C13: the depth of the nesting stack -/

theorem Balanced.same (f : JSON) : Balanced f f := by
  unfold Balanced; omega

theorem Balanced.step {f g h : JSON} (a : Balanced f g) (b : Balanced g h) : Balanced f h := by
  unfold Balanced at *; omega

/-- Bytes without a bracket, written with the stack left alone, keep the
balance. -/
theorem Balanced.of_quiet {f g : JSON} (x : List Byte) (hm : g.message = f.message ++ x)
    (hs : g.stack = f.stack) (hq : quiet x) : Balanced f g := by
  obtain ⟨ho, hc⟩ := hq
  unfold Balanced
  unfold opens at ho ⊢
  unfold closes at hc ⊢
  rw [hm, hs]
  simp only [List.count_append]
  omega

theorem quiet_append {a b : List Byte} (ha : quiet a) (hb : quiet b) : quiet (a ++ b) := by
  obtain ⟨h1, h2⟩ := ha
  obtain ⟨h3, h4⟩ := hb
  unfold quiet opens closes at *
  simp only [List.count_append]
  omega

theorem readEnd_balanced (f : JSON) (d : List Byte) (s : ParserStateID) :
    Balanced f (readEnd f d s) := by
  rcases List.eq_nil_or_concat f.stack with h0 | ⟨rest, top, hs⟩
  · rw [readEnd_nil f d s h0]
    simp only [Balanced, h0]
    omega
  · have hs2 : f.stack = rest ++ [top] := by simpa using hs
    rw [readEnd_snoc f d s rest top hs2]
    by_cases ha : f.state = jsonReadArray ∨ f.state = jsonReadArrayAppend
    · simp [Balanced, opens, closes, closingByte, ha, hs2, List.count_append]
      omega
    · simp [Balanced, opens, closes, closingByte, ha, hs2, List.count_append]
      omega

theorem writeKeyLoop_balanced (fuel : Nat) : ∀ f : JSON, Balanced f (writeKeyLoop fuel f) := by
  induction fuel with
  | zero => intro f; exact Balanced.same f
  | succ n ih =>
    intro f
    unfold writeKeyLoop
    split
    · exact (readEnd_balanced f [] 0).step (ih _)
    · exact Balanced.same f

/-- After its loop `writeKey` writes bytes that, apart from the escaped key,
hold no bracket, and it leaves the stack alone. -/
theorem writeKey_after_loop (f : JSON) (key : List Byte) :
    ∃ x, quiet x ∧
      (writeKey f key).message =
        (writeKeyLoop (f.stack.length + 1) f).message ++ (x ++ HTMLEscape key ++ [34, 58]) ∧
      (writeKey f key).stack = (writeKeyLoop (f.stack.length + 1) f).stack ∧
      (writeKey f key).state = (writeKeyLoop (f.stack.length + 1) f).state := by
  unfold writeKey
  dsimp only
  generalize writeKeyLoop (f.stack.length + 1) f = c
  rcases c with ⟨msg, prs, st, stk, i, tr, tw⟩
  refine ⟨(if st.toNat > jsonReadKey.toNat then [110, 117, 108, 108] else []) ++
    (if st = jsonReadObject then [] else [44]) ++ [34], ?_, ?_, ?_, ?_⟩
  · cases st <;> simp [quiet, opens, closes, jsonReaderState.toNat]
  · cases st <;> simp [JSON.Write, jsonReaderState.toNat]
  · cases st <;> simp [JSON.Write, jsonReaderState.toNat]
  · cases st <;> simp [JSON.Write, jsonReaderState.toNat]

theorem writeKey_balanced (f : JSON) (key : List Byte) (hq : quiet (HTMLEscape key)) :
    Balanced f (writeKey f key) := by
  obtain ⟨x, hx, hm, hs, -⟩ := writeKey_after_loop f key
  refine (writeKeyLoop_balanced _ f).step (Balanced.of_quiet _ hm hs ?_)
  exact quiet_append (quiet_append hx hq) (by simp [quiet, opens, closes])

/-- `readValue` leaves the stack alone. -/
theorem readValue_frame (f : JSON) (d : List Byte) (s : ParserStateID) :
    (readValue f d s).stack = f.stack ∧
      (readValue f d s).state =
        (if f.state = jsonReadArray ∨ f.state = jsonReadArrayAppend then jsonReadArrayAppend
          else jsonReadKey) := by
  rcases f with ⟨msg, prs, st, stk, i, tr, tw⟩
  cases st <;> simp [readValue, writeKey, writeKeyLoop, JSON.Write, jsonReaderState.toNat]

/-- `readEscaped` leaves the stack alone. -/
theorem readEscaped_frame (f : JSON) (d : List Byte) (s : ParserStateID) :
    (readEscaped f d s).stack = f.stack ∧
      (readEscaped f d s).state =
        (if f.state = jsonReadArray ∨ f.state = jsonReadArrayAppend then jsonReadArrayAppend
          else jsonReadKey) := by
  rcases f with ⟨msg, prs, st, stk, i, tr, tw⟩
  cases st <;> simp [readEscaped, writeKey, writeKeyLoop, JSON.Write, jsonReaderState.toNat]

theorem readValue_balanced (f : JSON) (d : List Byte) (s : ParserStateID)
    (hd : quiet (TrimSpace d)) (hn : quiet (HTMLEscape (f.parser.GetStateName s))) :
    Balanced f (readValue f d s) := by
  have hk := writeKey_balanced f (f.parser.GetStateName s) hn
  have hw : ∀ g : JSON, Balanced g (g.Write (TrimSpace d)) :=
    fun g => Balanced.of_quiet (TrimSpace d) rfl rfl hd
  have hc : ∀ g : JSON, Balanced g (g.Write [44]) :=
    fun g => Balanced.of_quiet [44] rfl rfl (by simp [quiet, opens, closes])
  unfold readValue
  split
  · exact hw f
  · exact hw f
  · exact (hc f).step (hw _)
  · exact hk.step (hw _)

theorem readEscaped_balanced (f : JSON) (d : List Byte) (s : ParserStateID)
    (hd : quiet (HTMLEscape (TrimSpace d))) (hn : quiet (HTMLEscape (f.parser.GetStateName s))) :
    Balanced f (readEscaped f d s) := by
  have hk := writeKey_balanced f (f.parser.GetStateName s) hn
  have hw : ∀ g : JSON, Balanced g (g.Write (HTMLEscape (TrimSpace d))) :=
    fun g => Balanced.of_quiet _ rfl rfl hd
  have hq : ∀ (g : JSON) (x : List Byte), quiet x → Balanced g (g.Write x) :=
    fun g x hx => Balanced.of_quiet x rfl rfl hx
  have h34 : quiet [34] := by simp [quiet, opens, closes]
  have h4434 : quiet [44, 34] := by simp [quiet, opens, closes]
  unfold readEscaped
  dsimp only
  refine Balanced.step ?_ (hq _ [34] h34)
  split
  · exact (hq f [34] h34).step (hw _)
  · exact (hq f [34] h34).step (hw _)
  · exact (hq f [44, 34] h4434).step (hw _)
  · exact (hk.step (hq _ [34] h34)).step (hw _)

theorem readArray_balanced (f : JSON) (d : List Byte) (s : ParserStateID) :
    Balanced f (readArray f d s) := by
  by_cases h : f.state = jsonReadArrayAppend
  · simp only [Balanced, readArray, h, if_true, JSON.Write, opens, closes, List.count_append,
      List.length_append]
    simp
    omega
  · simp only [Balanced, readArray, h, if_false, JSON.Write, opens, closes, List.count_append,
      List.length_append]
    simp
    omega

theorem readObject_balanced (f : JSON) (d : List Byte) (s : ParserStateID) :
    Balanced f (readObject f d s) := by
  by_cases h : f.state = jsonReadArrayAppend
  · simp only [Balanced, readObject, h, if_true, JSON.Write, opens, closes, List.count_append,
      List.length_append]
    simp
    omega
  · simp only [Balanced, readObject, h, if_false, JSON.Write, opens, closes, List.count_append,
      List.length_append]
    simp
    omega

/-- Every callback keeps the balance between brackets and stack depth when the
bytes it writes for its data hold no bracket. -/
theorem invoke_balanced (f : JSON) (c : Invocation) (hp : plain f.parser.GetStateName c) :
    Balanced f (invoke f c) := by
  obtain ⟨hd, he, hk, hn⟩ := hp
  unfold invoke
  split
  · exact writeKey_balanced f c.data hk
  · exact readValue_balanced f c.data c.state hd hn
  · exact readEscaped_balanced f c.data c.state he hn
  · exact readArray_balanced f c.data c.state
  · exact readObject_balanced f c.data c.state
  · exact readEnd_balanced f c.data c.state
  · exact Balanced.step (g := { readValue f c.data c.state with state := f.state })
      (readValue_balanced f c.data c.state hd hn) (readEnd_balanced _ c.data c.state)
  · exact Balanced.step (g := { readEscaped f c.data c.state with state := f.state })
      (readEscaped_balanced f c.data c.state he hn) (readEnd_balanced _ c.data c.state)

theorem invokeAll_balanced (calls : List Invocation) :
    ∀ f : JSON, (∀ c ∈ calls, plain f.parser.GetStateName c) →
      Balanced f (invokeAll f calls) := by
  induction calls with
  | nil => intro f _; exact Balanced.same f
  | cons c cs ih =>
    intro f hp
    have h1 := invoke_balanced f c (hp c (List.mem_cons_self c cs))
    have hpar : (invoke f c).parser = f.parser := (invoke_extends f c).1
    have h2 := ih (invoke f c) (by
      intro x hx
      rw [hpar]
      exact hp x (List.mem_cons_of_mem c hx))
    exact h1.step h2

/-! ### The state and the stack do not depend on the data -/

theorem readEnd_alike {f g : JSON} (h : Alike f g) (d d2 : List Byte) (s s2 : ParserStateID) :
    Alike (readEnd f d s) (readEnd g d2 s2) := by
  obtain ⟨hst, hstk⟩ := h
  rcases List.eq_nil_or_concat f.stack with h0 | ⟨rest, top, hs⟩
  · rw [readEnd_nil f d s h0, readEnd_nil g d2 s2 (hstk ▸ h0)]
    exact ⟨rfl, rfl⟩
  · have hs2 : f.stack = rest ++ [top] := by simpa using hs
    rw [readEnd_snoc f d s rest top hs2, readEnd_snoc g d2 s2 rest top (hstk ▸ hs2)]
    exact ⟨rfl, rfl⟩

theorem writeKeyLoop_alike (fuel : Nat) :
    ∀ f g : JSON, Alike f g → Alike (writeKeyLoop fuel f) (writeKeyLoop fuel g) := by
  induction fuel with
  | zero => intro f g h; exact h
  | succ n ih =>
    intro f g h
    unfold writeKeyLoop
    rw [← h.1]
    split
    · exact ih _ _ (readEnd_alike h [] [] 0 0)
    · exact h

theorem writeKey_alike {f g : JSON} (h : Alike f g) (k k2 : List Byte) :
    Alike (writeKey f k) (writeKey g k2) := by
  obtain ⟨-, -, -, hs1, hst1⟩ := writeKey_after_loop f k
  obtain ⟨-, -, -, hs2, hst2⟩ := writeKey_after_loop g k2
  have hl := writeKeyLoop_alike (f.stack.length + 1) f g h
  rw [h.2] at hl hs1 hst1
  exact ⟨by rw [hst1, hst2, hl.1], by rw [hs1, hs2, hl.2]⟩

/-- A callback leaves formatters that are alike, alike: the state and the stack
it leaves depend on the state and the stack it finds and on nothing else. -/
theorem invoke_alike {f g : JSON} (h : Alike f g) (c c2 : Invocation) (hfn : c.fn = c2.fn) :
    Alike (invoke f c) (invoke g c2) := by
  have hv : Alike (readValue f c.data c.state) (readValue g c2.data c2.state) := by
    obtain ⟨a1, a2⟩ := readValue_frame f c.data c.state
    obtain ⟨b1, b2⟩ := readValue_frame g c2.data c2.state
    exact ⟨by rw [a2, b2, h.1], by rw [a1, b1, h.2]⟩
  have he : Alike (readEscaped f c.data c.state) (readEscaped g c2.data c2.state) := by
    obtain ⟨a1, a2⟩ := readEscaped_frame f c.data c.state
    obtain ⟨b1, b2⟩ := readEscaped_frame g c2.data c2.state
    exact ⟨by rw [a2, b2, h.1], by rw [a1, b1, h.2]⟩
  unfold invoke
  rw [← hfn]
  split
  · exact ⟨rfl, (writeKey_alike h c.data c2.data).2⟩
  · exact hv
  · exact he
  · exact ⟨rfl, by simp [readArray, h.1, h.2]⟩
  · exact ⟨rfl, by simp [readObject, h.1, h.2]⟩
  · exact readEnd_alike h c.data c2.data c.state c2.state
  · exact readEnd_alike (f := { readValue f c.data c.state with state := f.state })
      (g := { readValue g c2.data c2.state with state := g.state }) ⟨h.1, hv.2⟩
      c.data c2.data c.state c2.state
  · exact readEnd_alike (f := { readEscaped f c.data c.state with state := f.state })
      (g := { readEscaped g c2.data c2.state with state := g.state }) ⟨h.1, he.2⟩
      c.data c2.data c.state c2.state

theorem invokeAll_blank_alike (calls : List Invocation) :
    ∀ f g : JSON, Alike f g → Alike (invokeAll f calls) (invokeAll g (calls.map blank)) := by
  induction calls with
  | nil => intro f g h; exact h
  | cons c cs ih =>
    intro f g h
    exact ih _ _ (invoke_alike h c (blank c) rfl)

/-- Calls without data on a parser without state names write no bracket for
their data. -/
theorem blank_plain (c : Invocation) : plain (fun _ => []) (blank c) := by
  have h1 : TrimSpace [] = [] := by decide
  have h2 : HTMLEscape [] = [] := by decide
  simp [plain, blank, h1, h2, quiet, opens, closes]

/-- C13. Starting from an empty nesting stack, after any sequence of calls the
number of opening brackets written by `readArray` and `readObject` is the
number of closing brackets written by `readEnd` plus the depth of the nesting
stack.  The brackets written by these callbacks are counted in the `skeleton`
of the calls (the same calls without their data, on which the state and the
stack do not depend); when no data and no state name brings a bracket of its
own, the same holds of the brackets of the bytes added to the buffer itself. -/
theorem stack_depth_counts_brackets (format : JSON) (calls : List Invocation)
    (h : format.stack = []) :
    opens (skeleton format calls) =
        closes (skeleton format calls) + (invokeAll format calls).stack.length ∧
      (invokeAll format calls).stack = (invokeAll (blankFormat format) (calls.map blank)).stack ∧
      ((∀ c ∈ calls, plain format.parser.GetStateName c) →
        opens (invokeAll format calls).message + closes format.message =
          closes (invokeAll format calls).message + opens format.message +
            (invokeAll format calls).stack.length) := by
  have halike := invokeAll_blank_alike calls format (blankFormat format) ⟨rfl, rfl⟩
  have hbal := invokeAll_balanced (calls.map blank) (blankFormat format) (by
    intro c hc
    obtain ⟨c0, -, rfl⟩ := List.mem_map.mp hc
    exact blank_plain c0)
  refine ⟨?_, halike.2, ?_⟩
  · have hm : (blankFormat format).message = [] := rfl
    have hs : (blankFormat format).stack = [] := h
    unfold Balanced at hbal
    rw [← halike.2, hm, hs] at hbal
    unfold skeleton
    unfold opens closes at hbal ⊢
    simp only [List.count_nil, List.length_nil] at hbal
    omega
  · intro hp
    have hb := invokeAll_balanced calls format hp
    unfold Balanced at hb
    rw [h] at hb
    simp only [List.length_nil] at hb
    omega

/-- C13 on the calls `key a`, `arr`, `arr`, `val 1`, `end`, `obj` from the
buffer that holds the opening brace: three brackets are opened, one is closed,
and the nesting stack is two levels deep. -/
theorem stack_depth_counts_brackets_witness :
    opens (skeleton { fresh with message := [123] }
        [{ fn := .key, data := [97], state := 0 }, { fn := .arr, data := [], state := 0 },
          { fn := .arr, data := [], state := 0 }, { fn := .val, data := [49], state := 0 },
          { fn := .end_, data := [], state := 0 }, { fn := .obj, data := [], state := 0 }]) =
      closes (skeleton { fresh with message := [123] }
        [{ fn := .key, data := [97], state := 0 }, { fn := .arr, data := [], state := 0 },
          { fn := .arr, data := [], state := 0 }, { fn := .val, data := [49], state := 0 },
          { fn := .end_, data := [], state := 0 }, { fn := .obj, data := [], state := 0 }]) +
        (invokeAll { fresh with message := [123] }
          [{ fn := .key, data := [97], state := 0 }, { fn := .arr, data := [], state := 0 },
            { fn := .arr, data := [], state := 0 }, { fn := .val, data := [49], state := 0 },
            { fn := .end_, data := [], state := 0 },
            { fn := .obj, data := [], state := 0 }]).stack.length :=
  (stack_depth_counts_brackets { fresh with message := [123] } _ rfl).1

/-- The numbers of that example: the bytes written apart from the data are
`"":[[]{` with the commas and quotes between them, and the stack holds two
entries. -/
theorem stack_depth_example :
    skeleton { fresh with message := [123] }
        [{ fn := .key, data := [97], state := 0 }, { fn := .arr, data := [], state := 0 },
          { fn := .arr, data := [], state := 0 }, { fn := .val, data := [49], state := 0 },
          { fn := .end_, data := [], state := 0 }, { fn := .obj, data := [], state := 0 }] =
        [34, 34, 58, 91, 91, 93, 123] ∧
      (invokeAll { fresh with message := [123] }
          [{ fn := .key, data := [97], state := 0 }, { fn := .arr, data := [], state := 0 },
            { fn := .arr, data := [], state := 0 }, { fn := .val, data := [49], state := 0 },
            { fn := .end_, data := [], state := 0 },
            { fn := .obj, data := [], state := 0 }]).stack = [jsonReadValue, jsonReadArray] ∧
      (invokeAll { fresh with message := [123] }
          [{ fn := .key, data := [97], state := 0 }, { fn := .arr, data := [], state := 0 },
            { fn := .arr, data := [], state := 0 }, { fn := .val, data := [49], state := 0 },
            { fn := .end_, data := [], state := 0 },
            { fn := .obj, data := [], state := 0 }]).message =
        [123, 34, 97, 34, 58, 91, 91, 49, 93, 123] := by
  decide

/-! ## Reading what the callbacks write -/

theorem run_escaped_byte (stk : List Bool) (k : Bool) (b : Byte) (rest : List Byte)
    (hb : b = 60 ∨ b = 62 ∨ b = 38) :
    run (stk, .inString k) ([92, 117, 48, 48, hex (b / 16), hex (b % 16)] ++ rest) =
      run (stk, .inString k) rest := by
  rcases hb with rfl | rfl | rfl <;> simp [run, stepByte, hex]

theorem run_escaped_separator (stk : List Bool) (k : Bool) (d : Byte) (rest : List Byte)
    (hd : d = 168 ∨ d = 169) :
    run (stk, .inString k) ([92, 117, 50, 48, 50, hex (d % 16)] ++ rest) =
      run (stk, .inString k) rest := by
  rcases hd with rfl | rfl <;> simp [run, stepByte, hex]

theorem run_plain_byte (stk : List Bool) (k : Bool) (b : Byte) (rest : List Byte)
    (h1 : b ≠ 34) (h2 : b ≠ 92) :
    run (stk, .inString k) (b :: rest) = run (stk, .inString k) rest := by
  simp [run, stepByte, h1, h2]

/-- The outputs of these two examples, and of `key a`, `val` with the array
`[1, "x"]` as data and `esc` with a backslash and a quote as data:
`{"a":[1, "x"],"s":"\""}`, which has the structure of a JSON text as well. -/
theorem admitted_output_example :
    (PrepareMessage fresh
          [{ fn := .esc, data := [60, 62], state := 0 }, { fn := .key, data := [97], state := 0 },
            { fn := .arr, data := [], state := 0 }, { fn := .val, data := [49], state := 0 },
            { fn := .arr, data := [], state := 0 }, { fn := .esc, data := [50], state := 0 },
            { fn := .end_, data := [], state := 0 }, { fn := .obj, data := [], state := 0 },
            { fn := .key, data := [98], state := 0 }, { fn := .arr, data := [], state := 0 },
            { fn := .end_, data := [], state := 0 }, { fn := .end_, data := [], state := 0 },
            { fn := .val_end, data := [51], state := 0 },
            { fn := .end_, data := [], state := 0 }] none 0).message =
        [123, 34, 115, 34, 58, 34, 92, 117, 48, 48, 51, 99, 92, 117, 48, 48, 51, 101, 34, 44,
          34, 97, 34, 58, 91, 49, 44, 91, 34, 50, 34, 93, 44, 123, 34, 98, 34, 58, 91, 93, 125,
          44, 51, 93, 125] ∧
      (PrepareMessage fresh
          [{ fn := .key, data := [97], state := 0 }, { fn := .arr, data := [], state := 0 },
            { fn := .val, data := [49], state := 0 }, { fn := .val, data := [50], state := 0 }]
          none 0).message = [123, 34, 97, 34, 58, 91, 49, 44, 50, 93, 125] ∧
      (PrepareMessage fresh
          [{ fn := .key, data := [97], state := 0 },
            { fn := .val, data := [91, 49, 44, 32, 34, 120, 34, 93], state := 0 },
            { fn := .esc, data := [92, 34], state := 0 }] none 0).message =
        [123, 34, 97, 34, 58, 91, 49, 44, 32, 34, 120, 34, 93, 44, 34, 115, 34, 58, 34, 92, 34,
          34, 125] ∧
      admitted demoParser.GetStateName
          [{ fn := .key, data := [97], state := 0 },
            { fn := .val, data := [91, 49, 44, 32, 34, 120, 34, 93], state := 0 },
            { fn := .esc, data := [92, 34], state := 0 }] = true := by
  decide

set_option maxRecDepth 100000 in
set_option maxHeartbeats 4000000 in
/-- The conditions of the amended claim leave out no short sequence with a
valid output: for every sequence of up to three callbacks, called with the
sample data, the finished output has the structure of a JSON text exactly when
the sequence is `admitted`. -/
theorem admitted_exactly_valid_short :
    (sequences 0 ++ sequences 1 ++ sequences 2 ++ sequences 3).all (fun s =>
      admitted fresh.parser.GetStateName (s.map sampleCall) ==
        validStructure (PrepareMessage fresh (s.map sampleCall) none 0).message) = true := by
  decide

end Gollum
